import Mathlib

/-!
Verification development for the structural-edit engine of
`helm-chart-bumper-action`: a shallow embedding, in Lean 4, of the
semver change engine (`internal/semverutil`), the chart change-level
computation (`internal/chart`), the directive scanner
(`internal/directives`), and the YAML path resolver/mutator
(`yamlutil`), together with theorems about the embedded functions.

Machine integers: the Go code uses `int` for version components, change
levels and indices; none of the verified properties involve overflow,
so they are modelled as unbounded `Int`/`Nat` (a note appears where the
Go code could overflow).  Strings are modelled as Lean `String`, with
character-level work done on `List Char` (`String.data`).
-/

deriving instance DecidableEq for Except

namespace HelmBumper

/-! ## String helpers shared by several Go files

These model the Go standard-library functions the sources call
(`strings.TrimSpace`, `strings.TrimPrefix`, `strings.Split`,
`strconv.Atoi`), restricted to the ASCII inputs the program handles.
-/

/-- Whitespace recognised by the model of `strings.TrimSpace`.  Go trims
Unicode white space; the inputs handled by this program are ASCII, so
the model trims the ASCII white-space characters. -/
def isWS (c : Char) : Bool :=
  c = ' ' || c = '\t' || c = '\n' || c = '\r'

/-- Model of `strings.TrimSpace` on the character list of a string. -/
def trimSpace (cs : List Char) : List Char :=
  ((cs.dropWhile isWS).reverse.dropWhile isWS).reverse

/-- Model of `strings.TrimPrefix(s, "v")`. -/
def trimPrefixV (cs : List Char) : List Char :=
  match cs with
  | 'v' :: rest => rest
  | _ => cs

/-- Model of `strings.Split(s, ".")`: split at every `'.'`; `n` dots
yield `n + 1` pieces. -/
def splitDot : List Char → List (List Char)
  | [] => [[]]
  | c :: cs =>
    if c = '.' then [] :: splitDot cs
    else
      match splitDot cs with
      | h :: t => (c :: h) :: t
      | [] => [[c]]

/-- Numeric value of a digit string (valid when all characters are
ASCII digits). -/
def digitsVal (cs : List Char) : Nat :=
  cs.foldl (fun a c => a * 10 + (c.toNat - 48)) 0

/-- Model of `strconv.Atoi`: optional sign, then one or more ASCII
digits; anything else is an error.  Go's `Atoi` additionally fails on
64-bit overflow, which no verified property exercises. -/
def goAtoi (cs : List Char) : Option Int :=
  match cs with
  | [] => none
  | c :: rest =>
    if c = '+' then
      if rest ≠ [] ∧ rest.all Char.isDigit then some (digitsVal rest : Int) else none
    else if c = '-' then
      if rest ≠ [] ∧ rest.all Char.isDigit then some (-(digitsVal rest : Int)) else none
    else if (c :: rest).all Char.isDigit then some (digitsVal (c :: rest) : Int)
    else none

/-- Core of the decimal rendering of a natural number: emits the digits
of `n` in front of `acc`.  The fuel argument makes the recursion
structural (any fuel with `n < 10 ^ fuel` is enough). -/
def natToCharsCore : Nat → Nat → List Char → List Char
  | 0, _, acc => acc
  | fuel + 1, n, acc =>
    if n < 10 then Nat.digitChar n :: acc
    else natToCharsCore fuel (n / 10) (Nat.digitChar (n % 10) :: acc)

/-- Decimal rendering of a natural number, modelling Go `fmt` `%d`. -/
def natToChars (n : Nat) : List Char := natToCharsCore (n + 1) n []

/-- Decimal rendering of an integer, modelling Go `fmt` `%d`. -/
def intToChars (n : Int) : List Char :=
  if n < 0 then '-' :: natToChars (-n).toNat else natToChars n.toNat

namespace semverutil

/-! ## `internal/semverutil` (source: `src/internal/chart/chart_test.go`,
`package semverutil` section)

`ChangeLevel` is a Go `int` (`iota` constants 0–3); it is modelled as
`Int` with named constants. -/

def NoChange : Int := 0
def PatchChange : Int := 1
def MinorChange : Int := 2
def MajorChange : Int := 3

/-- Model of `semverutil.Max`. -/
def Max (a b : Int) : Int := if a > b then a else b

structure Version where
  major : Int
  minor : Int
  patch : Int
deriving DecidableEq, Repr

/-- Model of `semverutil.Parse` on a character list: trim space, strip
an optional leading `v`, split on `.` into exactly three parts, parse
each with `Atoi`.  The Go function returns `(Version, error)`; the
model returns `Option Version` (`none` for the error case). -/
def ParseCs (cs : List Char) : Option Version :=
  match splitDot (trimPrefixV (trimSpace cs)) with
  | [a, b, c] =>
    match goAtoi a, goAtoi b, goAtoi c with
    | some x, some y, some z => some ⟨x, y, z⟩
    | _, _, _ => none
  | _ => none

/-- Model of `semverutil.Parse` on a string. -/
def Parse (s : String) : Option Version := ParseCs s.data

/-- Model of `semverutil.Compare`:  trim both, equal texts mean
`NoChange`; unparsable inputs mean `NoChange`; otherwise the first
differing tier of (major, minor, patch). -/
def Compare (a b : String) : Int :=
  let a' := trimSpace a.data
  let b' := trimSpace b.data
  if a' = b' then NoChange
  else
    match ParseCs a', ParseCs b' with
    | some va, some vb =>
      if va.major ≠ vb.major then MajorChange
      else if va.minor ≠ vb.minor then MinorChange
      else if va.patch ≠ vb.patch then PatchChange
      else NoChange
    | _, _ => NoChange

/-- Rendering `fmt.Sprintf("%d.%d.%d", x, y, z)` used by
`BumpChartVersion`. -/
def renderV (x y z : Int) : String :=
  String.mk (intToChars x ++ ('.' :: (intToChars y ++ ('.' :: intToChars z))))

/-- Model of `semverutil.BumpChartVersion`: parse the current text
(`none` on failure), then format the bumped version by level; the
`default` branch of the Go `switch` (hit by `NoChange` and any other
level) re-renders the parsed version. -/
def BumpChartVersion (current : String) (lvl : Int) : Option String :=
  match Parse current with
  | none => none
  | some v =>
    if lvl = MajorChange then some (renderV (v.major + 1) 0 0)
    else if lvl = MinorChange then some (renderV v.major (v.minor + 1) 0)
    else if lvl = PatchChange then some (renderV v.major v.minor (v.patch + 1))
    else some (renderV v.major v.minor v.patch)

end semverutil

namespace chart

/-! ## `internal/chart` (source: `src/internal/chart/chart_test.go`,
`package chart` section) -/

structure Dependency where
  name : String
  version : String
  repository : String
deriving DecidableEq, Repr

structure Meta where
  name : String
  version : String
  appVersion : String
  dependencies : List Dependency
deriving DecidableEq, Repr

/-- Lookup in the `baseDeps` Go map built by iterating the base
dependency list in order with overwrite: the last entry with a given
name wins. -/
def depsLookup (ds : List Dependency) (n : String) : Option String :=
  ds.foldl (fun acc d => if d.name = n then some d.version else acc) none

/-- Model of `chart.ComputeChangeLevel`: start from `Compare` on the
application versions, then fold `Max` with `Compare` on each current
dependency whose name appears in the base dependency map. -/
def ComputeChangeLevel (base cur : Meta) : Int :=
  cur.dependencies.foldl
    (fun lvl d =>
      match depsLookup base.dependencies d.name with
      | some old => semverutil.Max lvl (semverutil.Compare old d.version)
      | none => lvl)
    (semverutil.Compare base.appVersion cur.appVersion)

/-- The per-shared-dependency comparison levels, in current-list
order: for each current dependency whose name is in the base map, the
`Compare` of the base version against the current version. -/
def sharedLevels (base cur : Meta) : List Int :=
  cur.dependencies.filterMap
    (fun d => (depsLookup base.dependencies d.name).map
      (fun old => semverutil.Compare old d.version))

end chart

namespace directives

/-! ## `internal/directives` (source: `src/internal/directives/directives.go`)

The scanner is modelled over a list of lines (the Go function reads the
file line by line with `bufio.Scanner`; file IO and logging carry no
directive semantics).  `FilePath` is the scan argument copied into each
directive, so it is omitted from the model. -/

structure ImageDirective where
  line : Nat := 0
  key : String := ""
  yamlPath : String := ""
  currentText : String := ""
  image : String := ""
  strategy : String := ""
  constraint : String := ""
  tagRegex : String := ""
  allowPrerelease : Bool := false
  platform : String := ""
deriving DecidableEq, Repr

inductive DirErr where
  | unterminatedQuote    -- "unterminated quote in directive"
  | invalidToken         -- "invalid directive token (expected key=value)"
  | emptyKeyOrValue      -- "invalid directive token (empty key or value)"
  | missingImage         -- "missing required directive field: image="
  | badImage             -- "image must be a fully-qualified repository"
  | badBool              -- "allowPrerelease must be true/false"
deriving DecidableEq, Repr

/-- Append the current token to the output if it is nonempty, modelling
the `flush` closure in `splitArgs`. -/
def flushTok (cur : List Char) (out : List String) : List String :=
  if cur.isEmpty then out else out ++ [String.mk cur]

/-- The `splitArgs` character loop: split on spaces and tabs that are
not inside quotes; quote characters toggle the quote state (Go handles
`' '` and `'\t'` in two identical switch cases). -/
def splitArgsLoop : List Char → List Char → Bool → Bool → List String →
    Option (List String)
  | [], cur, inS, inD, out =>
    if inS || inD then none else some (flushTok cur out)
  | c :: cs, cur, inS, inD, out =>
    if c = ' ' ∨ c = '\t' then
      if inS || inD then splitArgsLoop cs (cur ++ [c]) inS inD out
      else splitArgsLoop cs [] inS inD (flushTok cur out)
    else if c = '\'' then
      if inD then splitArgsLoop cs (cur ++ [c]) inS inD out
      else splitArgsLoop cs cur (!inS) inD out
    else if c = '"' then
      if inS then splitArgsLoop cs (cur ++ [c]) inS inD out
      else splitArgsLoop cs cur inS (!inD) out
    else splitArgsLoop cs (cur ++ [c]) inS inD out

/-- Model of `strings.Cut(s, sep)` for a one-character separator:
split at the first occurrence, `none` when absent. -/
def cutChar (sep : Char) : List Char → Option (List Char × List Char)
  | [] => none
  | c :: rest =>
    if c = sep then some ([], rest)
    else (cutChar sep rest).map (fun p => (c :: p.1, p.2))

/-- Model of `strings.Trim(s, cutset)` for a one-character cutset:
remove every leading and trailing occurrence. -/
def trimCharList (c : Char) (cs : List Char) : List Char :=
  ((cs.dropWhile (· = c)).reverse.dropWhile (· = c)).reverse

/-- The quote-stripping pass at the end of `splitArgs`: in each
`key=value` token, trim the value of spaces, then of double quotes,
then of single quotes. -/
def stripQuotes (tok : String) : String :=
  match cutChar '=' tok.data with
  | none => tok
  | some (k, v) =>
    String.mk (k ++ '=' :: trimCharList '\'' (trimCharList '"' (trimSpace v)))

/-- Model of `directives.splitArgs`. -/
def splitArgs (s : String) : Option (List String) :=
  (splitArgsLoop s.data [] false false []).map (List.map stripQuotes)

/-- Set a key in the `kv` Go map modelled as an ordered association
list with unique keys (replace if present, append otherwise). -/
def kvSet : List (String × String) → String → String → List (String × String)
  | [], k, v => [(k, v)]
  | p :: ps, k, v => if p.1 = k then (p.1, v) :: ps else p :: kvSet ps k v

/-- Read a key from the `kv` map; a missing key reads as the Go zero
value `""`. -/
def kvGet (kv : List (String × String)) (k : String) : String :=
  match kv.find? (fun p => p.1 = k) with
  | some p => p.2
  | none => ""

def kvHas (kv : List (String × String)) (k : String) : Bool :=
  kv.any (fun p => p.1 = k)

/-- The token loop of `parseDirectiveArgs`: each token must cut on `=`
into a nonempty trimmed key and value; later tokens overwrite earlier
ones with the same key (`kv` is the accumulated map). -/
def parseKvTokens : List (String × String) → List String →
    Except DirErr (List (String × String))
  | kv, [] => .ok kv
  | kv, a :: rest =>
    match cutChar '=' a.data with
    | none => .error .invalidToken
    | some (k, v) =>
      let k2 := String.mk (trimSpace k)
      let v2 := String.mk (trimSpace v)
      if k2 = "" ∨ v2 = "" then .error .emptyKeyOrValue
      else parseKvTokens (kvSet kv k2 v2) rest

def containsChar (c : Char) (s : String) : Bool := s.data.contains c

/-- Model of `strconv.ParseBool`: the twelve literals it accepts. -/
def goParseBool (s : String) : Option Bool :=
  if s = "1" ∨ s = "t" ∨ s = "T" ∨ s = "TRUE" ∨ s = "true" ∨ s = "True" then
    some true
  else if s = "0" ∨ s = "f" ∨ s = "F" ∨ s = "FALSE" ∨ s = "false" ∨ s = "False" then
    some false
  else none

/-- Model of `directives.parseDirectiveArgs`. -/
def parseDirectiveArgs (argStr : String) : Except DirErr ImageDirective :=
  match splitArgs argStr with
  | none => .error .unterminatedQuote
  | some args =>
    match parseKvTokens [] args with
    | .error e => .error e
    | .ok kv =>
      let img := kvGet kv "image"
      if img = "" then .error .missingImage
      else if ¬(containsChar '/' img ∧ containsChar '.' img) then .error .badImage
      else
        let strat0 := kvGet kv "strategy"
        let strat := if strat0 = "" then "semver" else strat0
        if kvHas kv "allowPrerelease" then
          match goParseBool (kvGet kv "allowPrerelease") with
          | none => .error .badBool
          | some b =>
            .ok { image := img, strategy := strat,
                  constraint := kvGet kv "constraint",
                  tagRegex := kvGet kv "tagRegex",
                  allowPrerelease := b, platform := kvGet kv "platform" }
        else
          .ok { image := img, strategy := strat,
                constraint := kvGet kv "constraint",
                tagRegex := kvGet kv "tagRegex",
                allowPrerelease := false, platform := kvGet kv "platform" }

/-! ### YAML line parsing and the indentation stack -/

inductive LineErr where
  | dashNotAligned         -- "unsupported indentation (dash not aligned)"
  | invalidListItemMapping -- "invalid list item mapping"
  | unsupportedLine        -- "unsupported YAML line (expected key: value)"
  | emptyKey               -- "empty key"
deriving DecidableEq, Repr

structure LineInfo where
  indent : Nat := 0
  isListItem : Bool := false
  key : String := ""
  valueText : String := ""
  isScalarKV : Bool := false
  isMapStart : Bool := false
deriving DecidableEq, Repr

/-- Leading-space count, modelling the indentation loop. -/
def countIndent (cs : List Char) : Nat := (cs.takeWhile (· = ' ')).length

/-- Model of `directives.parseYAMLContentLine`. -/
def parseYAMLContentLine (line : String) : Except LineErr LineInfo :=
  let cs := line.data
  let indent := countIndent cs
  if trimSpace cs = [] then .ok {}
  else if (cs.dropWhile (· = ' ')).head? = some '-' then
    -- Go re-checks that the dash sits exactly at the indent column; the
    -- error branch is unreachable given the head check but kept as in
    -- the source.
    if indent ≥ cs.length ∨ cs.get? indent ≠ some '-' then .error .dashNotAligned
    else
      let rest := trimSpace (cs.drop (indent + 1))
      if rest = [] then .ok { indent := indent, isListItem := true }
      else
        match cutChar ':' rest with
        | some (k, v) =>
          let key := trimSpace k
          let val := trimSpace v
          if key = [] then .error .invalidListItemMapping
          else if val = [] then
            .ok { indent := indent, isListItem := true, key := String.mk key,
                  isMapStart := true }
          else
            .ok { indent := indent, isListItem := true, key := String.mk key,
                  valueText := String.mk val, isScalarKV := true }
        | none => .ok { indent := indent, isListItem := true }
  else
    match cutChar ':' (cs.dropWhile (· = ' ')) with
    | none => .error .unsupportedLine
    | some (k, v) =>
      let key := trimSpace k
      let val := trimSpace v
      if key = [] then .error .emptyKey
      else if val = [] then
        .ok { indent := indent, key := String.mk key, isMapStart := true }
      else
        .ok { indent := indent, key := String.mk key,
              valueText := String.mk val, isScalarKV := true }

inductive StackStep where
  | key (indent : Nat) (k : String)
  | index (indent : Nat) (i : Nat)
deriving DecidableEq, Repr

def StackStep.indentOf : StackStep → Nat
  | .key i _ => i
  | .index i _ => i

structure PathStack where
  steps : List StackStep := []
  listIndexByIndent : List (Nat × Nat) := []
deriving DecidableEq, Repr

def miLookup (m : List (Nat × Nat)) (k : Nat) : Option Nat :=
  match m.find? (fun p => p.1 = k) with
  | some p => some p.2
  | none => none

def miSet : List (Nat × Nat) → Nat → Nat → List (Nat × Nat)
  | [], k, v => [(k, v)]
  | p :: ps, k, v => if p.1 = k then (k, v) :: ps else p :: miSet ps k v

/-- The map-deletion loop of `popToIndent`: drop every tracked list
index at the given indent or deeper. -/
def miDropGE (m : List (Nat × Nat)) (k : Nat) : List (Nat × Nat) :=
  m.filter (fun p => p.1 < k)

/-- Model of `pathStack.popToIndent`: pop stack frames while the top
frame's indent is ≥ the line indent (the Go loop pops from the end of
the slice, which equals dropping the maximal such suffix), and drop
list-index tracking for keys ≥ the indent. -/
def popToIndent (ps : PathStack) (indent : Nat) : PathStack :=
  { steps := (ps.steps.reverse.dropWhile (fun st => indent ≤ st.indentOf)).reverse,
    listIndexByIndent := miDropGE ps.listIndexByIndent indent }

/-- The "ensure we have an index step at this indent" block: replace
the top index step at this indent or push a fresh one. -/
def pushIndexStep (steps : List StackStep) (indent idx : Nat) : List StackStep :=
  match steps.getLast? with
  | some (.index i _) =>
    if i = indent then steps.dropLast ++ [.index indent idx]
    else steps ++ [.index indent idx]
  | _ => steps ++ [.index indent idx]

/-- Model of `pathStack.applyLine`. -/
def applyLine (ps : PathStack) (li : LineInfo) : PathStack :=
  let ps1 := popToIndent ps li.indent
  if li.isListItem then
    let idx :=
      match miLookup ps1.listIndexByIndent li.indent with
      | some prev => prev + 1
      | none => 0
    let ps2 := { ps1 with listIndexByIndent := miSet ps1.listIndexByIndent li.indent idx }
    let ps3 := { ps2 with steps := pushIndexStep ps2.steps li.indent idx }
    if li.key ≠ "" then
      let ps4 := popToIndent ps3 (li.indent + 1)
      { ps4 with steps := ps4.steps ++ [.key (li.indent + 2) li.key] }
    else ps3
  else if li.key ≠ "" then
    if li.isMapStart then { ps1 with steps := ps1.steps ++ [.key li.indent li.key] }
    else ps1
  else ps1

def stepText : StackStep → String
  | .key _ k => "." ++ k
  | .index _ i => "[" ++ String.mk (natToChars i) ++ "]"

/-- Model of `pathStack.currentPathWithLeaf` (`strconv.Itoa` on the
non-negative index is `natToChars`). -/
def currentPathWithLeaf (ps : PathStack) (li : LineInfo) : String :=
  "$" ++ String.join (ps.steps.map stepText) ++
    (if li.key ≠ "" then "." ++ li.key else "")

/-! ### The scan loop -/

inductive ScanErr where
  | directiveErr (e : DirErr) (line : Nat)
  | lineErr (e : LineErr) (line : Nat)
  | nonScalarTarget (line : Nat)   -- "bump directive must precede a scalar key"
  | pendingAtEOF (line : Nat)      -- "bump directive had no following YAML key"
deriving DecidableEq, Repr

/-- Model of the regular expression match on
`reDirective`: optional whitespace, `#`, optional whitespace, the
literal `bump:`, then the captured remainder with its leading
whitespace stripped (the final greedy group). -/
def matchDirective (line : String) : Option String :=
  match (line.data.dropWhile isWS) with
  | '#' :: rest =>
    let rest := rest.dropWhile isWS
    if rest.take 5 = ['b', 'u', 'm', 'p', ':'] then
      some (String.mk ((rest.drop 5).dropWhile isWS))
    else none
  | _ => none

/-- The per-line loop body of `ScanFileForImageDirectives`: the Go
`lineNo` counter is the current line's 1-based number. -/
def scanLoop : List String → Nat → Option ImageDirective → PathStack →
    List ImageDirective → Except ScanErr (List ImageDirective)
  | [], _, pending, _, out =>
    match pending with
    | some d => .error (.pendingAtEOF d.line)
    | none => .ok out
  | l :: rest, lineNo, pending, stack, out =>
    match matchDirective l with
    | some args =>
      match parseDirectiveArgs args with
      | .error e => .error (.directiveErr e lineNo)
      | .ok d => scanLoop rest (lineNo + 1) (some { d with line := lineNo }) stack out
    | none =>
      let trim := trimSpace l.data
      if trim = [] ∨ trim.head? = some '#' then
        scanLoop rest (lineNo + 1) pending stack out
      else
        match parseYAMLContentLine l with
        | .error e => .error (.lineErr e lineNo)
        | .ok info =>
          let stack1 := applyLine stack info
          match pending with
          | some d =>
            if info.isScalarKV then
              let done : ImageDirective :=
                { d with
                  key := info.key
                  currentText := info.valueText
                  yamlPath := currentPathWithLeaf stack1 info }
              scanLoop rest (lineNo + 1) none stack1 (out ++ [done])
            else .error (.nonScalarTarget lineNo)
          | none => scanLoop rest (lineNo + 1) pending stack1 out

def insertByLine (d : ImageDirective) : List ImageDirective → List ImageDirective
  | [] => [d]
  | e :: es => if d.line < e.line then d :: e :: es else e :: insertByLine d es

/-- The final `sort.Slice` by (file path, line); a single-file scan
sorts by line number alone. -/
def sortByLine (ds : List ImageDirective) : List ImageDirective :=
  ds.foldr insertByLine []

/-- Model of `directives.ScanFileForImageDirectives` on the file's
lines. -/
def scanLines (lines : List String) : Except ScanErr (List ImageDirective) :=
  (scanLoop lines 1 none {} []).map sortByLine

end directives

namespace yamlutil

/-! ## `yamlutil` (source: `src/unnamed/part_003`, `package yamlutil`
section)

The decoded YAML value (`any` holding `yaml.MapSlice`, `[]any`,
strings, numbers, booleans or nil) is modelled as `Value`.  Map keys
are strings: `mapSliceGet`/`mapSliceSet` only ever match string keys,
and every key this program produces is a string.  `[]any` and
`[]interface\x7b\x7d` are the same Go type, so the double type switch in
the source is a single `seq` case here.  YAML floats are outside the
modelled scalar universe (no verified property involves them). -/

inductive Value where
  | str (s : String)
  | intg (n : Int)
  | boolv (b : Bool)
  | null
  | map (items : List (String × Value))
  | seq (xs : List Value)

inductive PathStep where
  | field (k : String)
  | index (i : Int)
deriving DecidableEq, Repr

/-- Error classification for path parsing and mutation; each
constructor names the `fmt.Errorf` site(s) in the source it stands
for. -/
inductive PathErr where
  | rootOnly      -- "path refers to root; expected $.key"
  | badStart      -- "unsupported path (expected to start with $.)"
  | emptySegment  -- "invalid path segment"
  | unclosedIndex -- "unclosed index in segment"
  | badIndex      -- "invalid index ... in segment"
  | typeMismatch  -- "expected map/array at step ..., got ..."
  | pathNotFound  -- "key not found" / "index out of range"
  | invalidStep   -- unreachable leaf/step default branches
deriving DecidableEq, Repr

/-- Position of the first occurrence of a character, modelling
`strings.IndexByte`. -/
def idxOfChar (c : Char) : List Char → Option Nat
  | [] => none
  | x :: xs => if x = c then some 0 else (idxOfChar c xs).map (· + 1)

/-- The per-segment bracket loop of `parseSimpleYAMLPath`: a segment is
a key, `key[i]...`, or `[i]...`, with chained indexes and trailing key
text allowed (`a[0]b` parses as key `a`, index `0`, key `b`).  The
fuel argument makes the recursion structural; every recursive call
drops at least one character, so `length + 1` fuel always suffices. -/
def parseSegmentCore : Nat → List Char → Except PathErr (List PathStep)
  | 0, _ => .error .invalidStep
  | fuel + 1, cs =>
    match idxOfChar '[' cs with
    | none => .ok [.field (String.mk cs)]
    | some br =>
      let keySteps : List PathStep :=
        if 0 < br then [.field (String.mk (cs.take br))] else []
      match idxOfChar ']' (cs.drop br) with
      | none => .error .unclosedIndex
      | some e0 =>
        let en := br + e0
        match goAtoi ((cs.drop (br + 1)).take (en - (br + 1))) with
        | none => .error .badIndex
        | some i =>
          if en + 1 ≥ cs.length then .ok (keySteps ++ [.index i])
          else
            match parseSegmentCore fuel (cs.drop (en + 1)) with
            | .ok more => .ok (keySteps ++ [.index i] ++ more)
            | .error e => .error e

def parseSegment (cs : List Char) : Except PathErr (List PathStep) :=
  parseSegmentCore (cs.length + 1) cs

/-- Model of `yamlutil.parseSimpleYAMLPath`. -/
def parseSimpleYAMLPath (p : String) : Except PathErr (List PathStep) :=
  if p = "$" then .error .rootOnly
  else if p.data.take 2 ≠ ['$', '.'] then .error .badStart
  else
    (splitDot (p.data.drop 2)).foldlM
      (fun acc part =>
        if part = [] then .error .emptySegment
        else
          match parseSegment part with
          | .ok steps => .ok (acc ++ steps)
          | .error e => .error e)
      []

/-- Model of `yamlutil.mapSliceGet`: the first item with the given
key. -/
def msGet (ms : List (String × Value)) (k : String) : Option Value :=
  match ms.find? (fun p => p.1 = k) with
  | some p => some p.2
  | none => none

/-- Model of `yamlutil.mapSliceSet`: replace the first item with the
given key, appending a new item when the key is absent (the Go
function's bool result is always true). -/
def msSet : List (String × Value) → String → Value → List (String × Value)
  | [], k, v => [(k, v)]
  | p :: ps, k, v => if p.1 = k then (p.1, v) :: ps else p :: msSet ps k v

/-- Step-by-step navigation: the shape checks, key lookups and index
bounds of the walk loop in `setAtPath`, which are also the navigation
the external go-yaml `Path.Filter` performs for `GetString` on the
shared address grammar (map field lookup, sequence index lookup; a
missing key or out-of-range index is a not-found error, a node of the
wrong shape is a type error). -/
def navigate : Value → List PathStep → Except PathErr Value
  | doc, [] => .ok doc
  | doc, s :: rest =>
    match s with
    | .field k =>
      match doc with
      | .map ms =>
        match msGet ms k with
        | none => .error .pathNotFound
        | some child => navigate child rest
      | _ => .error .typeMismatch
    | .index i =>
      match doc with
      | .seq xs =>
        if h : 0 ≤ i ∧ i < (xs.length : Int) then
          navigate (xs.get ⟨i.toNat, by omega⟩) rest
        else .error .pathNotFound
      | _ => .error .typeMismatch

/-- The leaf case of `setAtPath`: replace (or create) a map key, or
replace an existing sequence slot; an out-of-range index fails and the
sequence is never grown. -/
def leafSet (doc : Value) (s : PathStep) (v : String) : Except PathErr Value :=
  match s with
  | .field k =>
    match doc with
    | .map ms => .ok (.map (msSet ms k (.str v)))
    | _ => .error .typeMismatch
  | .index i =>
    match doc with
    | .seq xs =>
      if 0 ≤ i ∧ i < (xs.length : Int) then .ok (.seq (xs.set i.toNat (.str v)))
      else .error .pathNotFound
    | _ => .error .typeMismatch

/-- Model of `yamlutil.setAtPath` together with its `setAtPathAssign`
write-back: the Go code walks to the parent of the leaf, mutates the
leaf in a local copy, and re-assigns the updated containers back along
the same path; on a tree value that equals this recursion, which
rebuilds each container with the updated child.  An empty step list
(on which the Go code would panic indexing `steps[len(steps)-1]`, and
which `parseSimpleYAMLPath` never returns) is mapped to
`invalidStep`. -/
def setAtPath : Value → List PathStep → String → Except PathErr Value
  | _, [], _ => .error .invalidStep
  | doc, [s], v => leafSet doc s v
  | doc, s :: rest, v =>
    match s with
    | .field k =>
      match doc with
      | .map ms =>
        match msGet ms k with
        | none => .error .pathNotFound
        | some child =>
          match setAtPath child rest v with
          | .ok child2 => .ok (.map (msSet ms k child2))
          | .error e => .error e
      | _ => .error .typeMismatch
    | .index i =>
      match doc with
      | .seq xs =>
        if h : 0 ≤ i ∧ i < (xs.length : Int) then
          match setAtPath (xs.get ⟨i.toNat, by omega⟩) rest v with
          | .ok x2 => .ok (.seq (xs.set i.toNat x2))
          | .error e => .error e
        else .error .pathNotFound
      | _ => .error .typeMismatch

/-- Go `fmt.Sprint` on the decoded values, used by `GetString` for
non-string scalars: integers in decimal, booleans as `true`/`false`,
`yaml.MapSlice` as `[\x7bk v\x7d ...]`, slices as `[v ...]`. -/
def textOf : Value → String
  | .str s => s
  | .intg n => String.mk (intToChars n)
  | .boolv b => if b then "true" else "false"
  | .null => "<nil>"
  | .map ms =>
    "[" ++ String.intercalate " "
      (ms.attach.map (fun p => "\x7b" ++ p.1.1 ++ " " ++ textOf p.1.2 ++ "\x7d")) ++ "]"
  | .seq xs =>
    "[" ++ String.intercalate " " (xs.attach.map (fun x => textOf x.1)) ++ "]"
decreasing_by
  · have h1 := List.sizeOf_lt_of_mem p.2
    have h2 : sizeOf p.1.2 < sizeOf p.1 := by
      obtain ⟨a, b⟩ := p.1
      simp only [Prod.mk.sizeOf_spec]
      omega
    simp only [Value.map.sizeOf_spec]
    omega
  · have h1 := List.sizeOf_lt_of_mem x.2
    simp only [Value.seq.sizeOf_spec]
    omega

/-- Model of `yamlutil.GetString`: the external `yaml.PathString`
parser is modelled by `parseSimpleYAMLPath` on the shared address
grammar of §6 (`$`, `.name`, `[n]`), the only addresses this program
forms; any `Filter` navigation failure is swallowed into
`("", false)` with a nil error, and a nil result also reads as not
found. -/
def GetString (doc : Value) (path : String) : Except PathErr (String × Bool) :=
  match parseSimpleYAMLPath path with
  | .error e => .error e
  | .ok steps =>
    match navigate doc steps with
    | .error _ => .ok ("", false)
    | .ok out =>
      match out with
      | .null => .ok ("", false)
      | .str s => .ok (s, true)
      | other => .ok (textOf other, true)

/-- Model of `yamlutil.SetString`: read the current value (ignoring
any read error), return unchanged when it already equals the new
value, otherwise parse the path and mutate.  The result pairs the
`changed` flag with the (possibly updated) document; an error leaves
the document unchanged, since `setAtPath` mutates nothing before
failing. -/
def SetString (doc : Value) (path v : String) : Except PathErr (Bool × Value) :=
  let short : Bool :=
    match GetString doc path with
    | .ok (cur, true) => cur == v
    | _ => false
  if short then .ok (false, doc)
  else
    match parseSimpleYAMLPath path with
    | .error e => .error e
    | .ok steps =>
      match setAtPath doc steps v with
      | .error e => .error e
      | .ok doc2 => .ok (true, doc2)

end yamlutil

namespace docmodel

/-! ## The Document Model (spec §3, §4.1)

Modelled from the spec: the Document Model component — `Parse(bytes) →
Document | error(MalformedInput)` and `Render(Document) → bytes` with
the comment sidecar and the round-trip guarantee — is implemented by
the external go-yaml library; the repository's own code
(`yamlutil.ParseBytes`/`Render`) only delegates to it, so the
parse/render internals are not in `src/`.  Following spec §3 and §4.1,
a document is modelled as its ordered concrete syntax: a list of
parsed lines, each carrying its indentation, its key/value text and
its associated comment text (whole-line comments, and inline comments
split off a scalar's text at the first \x22 #\x22) — this is the
ordered tree written line by line, with the comment sidecar keyed by
line position.  `parseLine` rejects text outside the supported subset
(`MalformedInput`): non-canonical spacing, flow syntax, bare top-level
scalars and `key:value` without a space are all unsupported, as §4.1
allows. -/

inductive DocErr where
  | malformed   -- MalformedInput
deriving DecidableEq, Repr

/-- Key characters of the address grammar (§6): letters, digits, `_`,
`-`. -/
def isKeyChar (c : Char) : Bool :=
  c.isAlpha || c.isDigit || c = '_' || c = '-'

/-- One parsed inline item: a container-opening key, a `key: value`
scalar, or a plain scalar (sequence items only); scalars carry the
inline-comment text from their sidecar slot. -/
inductive CItem where
  | containerKey (k : String)
  | kv (k : String) (val : String) (cmt : Option String)
  | plain (val : String) (cmt : Option String)
deriving DecidableEq, Repr

/-- One parsed line: blank, whole-line comment, map entry, bare
sequence dash, or sequence entry. -/
inductive CLine where
  | blank (n : Nat)
  | comment (n : Nat) (text : String)
  | entry (n : Nat) (it : CItem)
  | seqBare (n : Nat)
  | seqEntry (n : Nat) (it : CItem)
deriving DecidableEq, Repr

/-- Split a scalar's text at the first `\x22 #\x22` into the value and its
inline-comment sidecar entry. -/
def splitCmt : List Char → List Char × Option (List Char)
  | [] => ([], none)
  | c1 :: rest1 =>
    match rest1 with
    | [] => ([c1], none)
    | c2 :: rest =>
      if c1 = ' ' ∧ c2 = '#' then ([], some rest)
      else ((c1 :: (splitCmt rest1).1), (splitCmt rest1).2)

/-- Re-attach an inline comment. -/
def joinCmt (v : List Char) (m : Option (List Char)) : List Char :=
  match m with
  | none => v
  | some c => v ++ ' ' :: '#' :: c

/-- Parse one inline item: a key run followed by `:` is a container
key (nothing after) or a scalar (`: ` then a value); `key:value`
without the space is unsupported; anything not of key-colon shape is a
plain scalar. -/
def parseItem (content : List Char) : Except DocErr CItem :=
  let ks := content.takeWhile isKeyChar
  let rest := content.dropWhile isKeyChar
  if ks ≠ [] ∧ rest.head? = some ':' then
    match rest with
    | _ :: [] => .ok (.containerKey (String.mk ks))
    | _ :: ' ' :: vrest =>
      if vrest = [] ∨ vrest.head? = some ' ' then .error .malformed
      else
        match splitCmt vrest with
        | (v, m) => .ok (.kv (String.mk ks) (String.mk v) (m.map String.mk))
    | _ => .error .malformed
  else
    match splitCmt content with
    | (v, m) => .ok (.plain (String.mk v) (m.map String.mk))

def renderItem : CItem → List Char
  | .containerKey k => k.data ++ [':']
  | .kv k v c => k.data ++ ':' :: ' ' :: joinCmt v.data (c.map String.data)
  | .plain v c => joinCmt v.data (c.map String.data)

/-- Parse a map-entry line body: plain scalars are not supported at
map positions. -/
def parseEntry (n : Nat) (body : List Char) : Except DocErr CLine :=
  match parseItem body with
  | .ok (.plain _ _) => .error .malformed
  | .ok it => .ok (.entry n it)
  | .error e => .error e

/-- Parse one line of the supported subset. -/
def parseLine (cs : List Char) : Except DocErr CLine :=
  let n := (cs.takeWhile (· = ' ')).length
  match cs.dropWhile (· = ' ') with
  | [] => .ok (.blank n)
  | c :: rest =>
    if c = '#' then .ok (.comment n (String.mk rest))
    else if c = '-' then
      if rest.isEmpty then .ok (.seqBare n)
      else if rest.head? = some ' ' then
        if rest.tail = [] ∨ rest.tail.head? = some ' ' then .error .malformed
        else
          match parseItem rest.tail with
          | .ok it => .ok (.seqEntry n it)
          | .error e => .error e
      else parseEntry n (c :: rest)
    else parseEntry n (c :: rest)

def renderLine : CLine → List Char
  | .blank n => List.replicate n ' '
  | .comment n t => List.replicate n ' ' ++ '#' :: t.data
  | .entry n it => List.replicate n ' ' ++ renderItem it
  | .seqBare n => List.replicate n ' ' ++ ['-']
  | .seqEntry n it => List.replicate n ' ' ++ '-' :: ' ' :: renderItem it

/-- Split the input at every newline (`n` newlines yield `n + 1`
lines). -/
def splitLF : List Char → List (List Char)
  | [] => [[]]
  | c :: cs =>
    if c = '\n' then [] :: splitLF cs
    else
      match splitLF cs with
      | h :: t => (c :: h) :: t
      | [] => [[c]]

def joinLF : List (List Char) → List Char
  | [] => []
  | [l] => l
  | l :: ls => l ++ '\n' :: joinLF ls

/-- Modelled from the spec: `Parse(bytes) → Document |
error(MalformedInput)` of §4.1. -/
def ParseDoc (b : String) : Except DocErr (List CLine) :=
  (splitLF b.data).mapM parseLine

/-- Modelled from the spec: `Render(Document) → bytes` of §4.1,
deterministic. -/
def RenderDoc (d : List CLine) : String :=
  String.mk (joinLF (d.map renderLine))

end docmodel

/-! ## Concrete example inputs used by several theorems -/

/-- A YAML document with a two-item sequence and a bump annotation on
the second item's `tag` line. -/
def exLines : List String :=
  ["items:", "  - x: 1", "    tag: a", "  - x: 2",
   "    # bump: image=ghcr.io/e/a", "    tag: b"]

/-- The directive the scanner actually produces for `exLines`. -/
def exDir : directives.ImageDirective :=
  { line := 5, key := "tag", yamlPath := "$.items[0].tag",
    currentText := "b", image := "ghcr.io/e/a", strategy := "semver" }

/-- The parsed form of `exLines` as the document model decodes it
(an ordered map with a two-item sequence; `x: 1` decodes as the
integer 1, `tag` values as strings). -/
def exDoc : yamlutil.Value :=
  .map [("items", .seq
    [.map [("x", .intg 1), ("tag", .str "a")],
     .map [("x", .intg 2), ("tag", .str "b")]])]

/-- A one-key document whose `a` value is a scalar, so that the step
`$.a.b` meets a node of the wrong shape. -/
def exScalarDoc : yamlutil.Value := .map [("a", .str "x")]

/-! ## Facts about the decimal rendering and `Atoi` -/

/-- The ten ASCII digit characters. -/
def digitList : List Char := ['0', '1', '2', '3', '4', '5', '6', '7', '8', '9']

theorem digitChar_mem {n : Nat} (h : n < 10) :
    Nat.digitChar n ∈ digitList := by
  interval_cases n <;> decide

theorem digit_facts {c : Char} (h : c ∈ digitList) :
    c.isDigit = true ∧ c ≠ '.' ∧ c ≠ 'v' ∧ c ≠ '+' ∧ c ≠ '-' ∧ isWS c = false := by
  fin_cases h <;> exact ⟨by decide, by decide, by decide, by decide, by decide, by decide⟩

theorem digitChar_toNat {n : Nat} (h : n < 10) :
    (Nat.digitChar n).toNat = 48 + n := by
  interval_cases n <;> decide

theorem natToCharsCore_spec :
    ∀ (fuel n : Nat) (acc : List Char), n < 10 ^ fuel → 0 < fuel →
      ∃ ds, natToCharsCore fuel n acc = ds ++ acc ∧ ds ≠ [] ∧
        (∀ c ∈ ds, c ∈ digitList) ∧
        ∀ init : Nat,
          ds.foldl (fun a c => a * 10 + (c.toNat - 48)) init =
            init * 10 ^ ds.length + n := by
  intro fuel
  induction fuel with
  | zero => intro n acc _ h; omega
  | succ fuel ih =>
    intro n acc hlt _
    by_cases hn : n < 10
    · refine ⟨[Nat.digitChar n], by simp [natToCharsCore, hn], by simp, ?_, ?_⟩
      · intro c hc; simp at hc; subst hc; exact digitChar_mem hn
      · intro init
        simp only [List.foldl_cons, List.foldl_nil, digitChar_toNat hn,
          List.length_cons, List.length_nil, pow_one]
        omega
    · have hf : 0 < fuel := by
        by_contra h0
        have : fuel = 0 := by omega
        subst this
        simp at hlt
        omega
      have hdiv : n / 10 < 10 ^ fuel := by
        rw [Nat.div_lt_iff_lt_mul (by omega)]
        calc n < 10 ^ (fuel + 1) := hlt
          _ = 10 ^ fuel * 10 := by ring
      obtain ⟨ds, heq, hne, hdig, hfold⟩ :=
        ih (n / 10) (Nat.digitChar (n % 10) :: acc) hdiv hf
      have hmod : n % 10 < 10 := Nat.mod_lt _ (by omega)
      refine ⟨ds ++ [Nat.digitChar (n % 10)], ?_, by simp, ?_, ?_⟩
      · simp only [natToCharsCore, if_neg hn]
        rw [heq, List.append_assoc]
        simp
      · intro c hc
        rcases List.mem_append.mp hc with h | h
        · exact hdig c h
        · simp at h; subst h; exact digitChar_mem hmod
      · intro init
        rw [List.foldl_append, hfold init]
        simp only [List.foldl_cons, List.foldl_nil, List.length_append,
          List.length_cons, List.length_nil, Nat.add_zero]
        rw [digitChar_toNat hmod]
        have hsub : 48 + n % 10 - 48 = n % 10 := by omega
        rw [hsub, pow_succ]
        have hdm : n / 10 * 10 + n % 10 = n := by omega
        calc (init * 10 ^ ds.length + n / 10) * 10 + n % 10
            = init * (10 ^ ds.length * 10) + (n / 10 * 10 + n % 10) := by ring
          _ = init * (10 ^ ds.length * 10) + n := by rw [hdm]

theorem natToChars_spec (n : Nat) :
    natToChars n ≠ [] ∧ (∀ c ∈ natToChars n, c ∈ digitList) ∧
      digitsVal (natToChars n) = n := by
  have hlt : n < 10 ^ (n + 1) := by
    calc n < 10 ^ n := Nat.lt_pow_self (by omega) n
      _ ≤ 10 ^ (n + 1) := Nat.pow_le_pow_right (by omega) (Nat.le_succ n)
  obtain ⟨ds, heq, hne, hdig, hfold⟩ :=
    natToCharsCore_spec (n + 1) n [] hlt (by omega)
  unfold natToChars
  rw [heq]
  simp only [List.append_nil]
  refine ⟨hne, hdig, ?_⟩
  have := hfold 0
  simpa [digitsVal] using this

theorem goAtoi_natToChars (n : Nat) : goAtoi (natToChars n) = some (n : Int) := by
  obtain ⟨hne, hdig, hval⟩ := natToChars_spec n
  rcases hcs : natToChars n with _ | ⟨c, rest⟩
  · exact absurd hcs hne
  · rw [hcs] at hdig hval
    obtain ⟨_, _, _, hplus, hminus, _⟩ := digit_facts (hdig c (by simp))
    have hall : (c :: rest).all Char.isDigit = true := by
      rw [List.all_eq_true]
      exact fun x hx => (digit_facts (hdig x hx)).1
    simp only [goAtoi, if_neg hplus, if_neg hminus, if_pos hall]
    rw [show digitsVal (c :: rest) = n from hval]

theorem goAtoi_intToChars (n : Int) : goAtoi (intToChars n) = some n := by
  by_cases hn : n < 0
  · have h1 : intToChars n = '-' :: natToChars (-n).toNat := by
      simp [intToChars, hn]
    obtain ⟨hne, hdig, hval⟩ := natToChars_spec (-n).toNat
    have hall : (natToChars (-n).toNat).all Char.isDigit = true := by
      rw [List.all_eq_true]
      exact fun x hx => (digit_facts (hdig x hx)).1
    rw [h1]
    simp only [goAtoi, if_neg (by decide : ¬('-' = '+')), if_pos rfl, hne, hall,
      and_true, ne_eq, not_false_iff, if_pos]
    · rw [hval]
      congr 1
      omega
  · have h1 : intToChars n = natToChars n.toNat := by
      simp [intToChars, hn]
    rw [h1, goAtoi_natToChars]
    congr 1
    omega

theorem intToChars_ne_nil (n : Int) : intToChars n ≠ [] := by
  by_cases hn : n < 0
  · simp [intToChars, hn]
  · simp only [intToChars, if_neg hn]
    exact (natToChars_spec _).1

theorem intToChars_chars {n : Int} {c : Char} (h : c ∈ intToChars n) :
    c ≠ '.' ∧ isWS c = false := by
  by_cases hn : n < 0
  · rw [intToChars, if_pos hn] at h
    rcases List.mem_cons.mp h with h | h
    · subst h; exact ⟨by decide, by decide⟩
    · obtain ⟨_, h1, _, _, _, h6⟩ := digit_facts ((natToChars_spec _).2.1 c h)
      exact ⟨h1, h6⟩
  · rw [intToChars, if_neg hn] at h
    obtain ⟨_, h1, _, _, _, h6⟩ := digit_facts ((natToChars_spec _).2.1 c h)
    exact ⟨h1, h6⟩

theorem intToChars_head_not_v (n : Int) :
    ∀ c rest, intToChars n = c :: rest → c ≠ 'v' := by
  intro c rest h
  by_cases hn : n < 0
  · rw [intToChars, if_pos hn, List.cons.injEq] at h
    rw [← h.1]; decide
  · rw [intToChars, if_neg hn] at h
    have hc : c ∈ natToChars n.toNat := by rw [h]; simp
    exact (digit_facts ((natToChars_spec _).2.1 c hc)).2.2.1

/-! ## Facts about `splitDot` and the trims -/

theorem splitDot_no_dot {cs : List Char} (h : ∀ c ∈ cs, c ≠ '.') :
    splitDot cs = [cs] := by
  induction cs with
  | nil => rfl
  | cons c cs ih =>
    have hc : c ≠ '.' := h c (by simp)
    have hrest := ih (fun x hx => h x (by simp [hx]))
    simp [splitDot, hc, hrest]

theorem splitDot_append_dot {a : List Char} (b : List Char)
    (h : ∀ c ∈ a, c ≠ '.') :
    splitDot (a ++ '.' :: b) = a :: splitDot b := by
  induction a with
  | nil => simp [splitDot]
  | cons c cs ih =>
    have hc : c ≠ '.' := h c (by simp)
    have hrest := ih (fun x hx => h x (by simp [hx]))
    simp only [List.cons_append, splitDot, if_neg hc]
    rw [show cs.append ('.' :: b) = cs ++ '.' :: b from rfl, hrest]

theorem dropWhile_not_ws {cs : List Char} (h : ∀ c ∈ cs, isWS c = false) :
    cs.dropWhile isWS = cs := by
  cases cs with
  | nil => rfl
  | cons c rest => simp [List.dropWhile, h c (by simp)]

theorem trimSpace_no_ws {cs : List Char} (h : ∀ c ∈ cs, isWS c = false) :
    trimSpace cs = cs := by
  unfold trimSpace
  rw [dropWhile_not_ws h, dropWhile_not_ws (fun c hc => h c (List.mem_reverse.mp hc)),
    List.reverse_reverse]

theorem trimPrefixV_cons_ne {c : Char} (h : c ≠ 'v') (t : List Char) :
    trimPrefixV (c :: t) = c :: t := by
  unfold trimPrefixV
  split
  · rename_i heq
    exfalso
    apply h
    rw [List.cons.injEq] at heq
    exact heq.1
  · rfl

/-! ## Parse-render inverse for the three-integer version form -/

theorem parseCs_renderV (x y z : Int) :
    semverutil.ParseCs (semverutil.renderV x y z).data = some ⟨x, y, z⟩ := by
  have hdata : (semverutil.renderV x y z).data =
      intToChars x ++ ('.' :: (intToChars y ++ ('.' :: intToChars z))) := rfl
  have hnows :
      ∀ c ∈ intToChars x ++ ('.' :: (intToChars y ++ ('.' :: intToChars z))),
      isWS c = false := by
    intro c hc
    simp only [List.mem_append, List.mem_cons] at hc
    rcases hc with h | h | h | h | h
    · exact (intToChars_chars h).2
    · subst h; decide
    · exact (intToChars_chars h).2
    · subst h; decide
    · exact (intToChars_chars h).2
  have htrim :
      trimSpace (intToChars x ++ ('.' :: (intToChars y ++ ('.' :: intToChars z)))) =
        intToChars x ++ ('.' :: (intToChars y ++ ('.' :: intToChars z))) :=
    trimSpace_no_ws hnows
  have hprefix :
      trimPrefixV (intToChars x ++ ('.' :: (intToChars y ++ ('.' :: intToChars z)))) =
        intToChars x ++ ('.' :: (intToChars y ++ ('.' :: intToChars z))) := by
    rcases hx : intToChars x with _ | ⟨c, rest⟩
    · exact absurd hx (intToChars_ne_nil x)
    · have hcv : c ≠ 'v' := intToChars_head_not_v x c rest hx
      rw [List.cons_append]
      exact trimPrefixV_cons_ne hcv _
  have hsplit :
      splitDot (intToChars x ++ ('.' :: (intToChars y ++ ('.' :: intToChars z)))) =
        [intToChars x, intToChars y, intToChars z] := by
    rw [splitDot_append_dot _ (fun c hc => (intToChars_chars hc).1)]
    rw [splitDot_append_dot _ (fun c hc => (intToChars_chars hc).1)]
    rw [splitDot_no_dot (fun c hc => (intToChars_chars hc).1)]
  unfold semverutil.ParseCs
  rw [hdata, htrim, hprefix, hsplit]
  simp [goAtoi_intToChars]

theorem parse_renderV (x y z : Int) :
    semverutil.Parse (semverutil.renderV x y z) = some ⟨x, y, z⟩ :=
  parseCs_renderV x y z

/-! ## Fold lemmas for `Max` -/

theorem le_Max_left (a b : Int) : a ≤ semverutil.Max a b := by
  unfold semverutil.Max; split <;> omega

theorem le_Max_right (a b : Int) : b ≤ semverutil.Max a b := by
  unfold semverutil.Max; split <;> omega

theorem le_foldl_Max (l : List Int) (init : Int) :
    init ≤ l.foldl semverutil.Max init := by
  induction l generalizing init with
  | nil => simp
  | cons a l ih =>
    calc init ≤ semverutil.Max init a := le_Max_left _ _
      _ ≤ (a :: l).foldl semverutil.Max init := by simpa using ih (semverutil.Max init a)

theorem mem_le_foldl_Max {a : Int} {l : List Int} (init : Int) (h : a ∈ l) :
    a ≤ l.foldl semverutil.Max init := by
  induction l generalizing init with
  | nil => simp at h
  | cons b l ih =>
    rcases List.mem_cons.mp h with h | h
    · subst h
      calc a ≤ semverutil.Max init a := le_Max_right _ _
        _ ≤ l.foldl semverutil.Max (semverutil.Max init a) := le_foldl_Max _ _
    · simpa using ih (semverutil.Max init b) h

theorem computeChangeLevel_foldl_aux (bs : List chart.Dependency)
    (ds : List chart.Dependency) (init : Int) :
    ds.foldl
      (fun lvl d =>
        match chart.depsLookup bs d.name with
        | some old => semverutil.Max lvl (semverutil.Compare old d.version)
        | none => lvl) init =
    (ds.filterMap (fun d => (chart.depsLookup bs d.name).map
        (fun old => semverutil.Compare old d.version))).foldl semverutil.Max init := by
  induction ds generalizing init with
  | nil => rfl
  | cons d ds ih =>
    cases h : chart.depsLookup bs d.name with
    | none => simp [List.foldl, List.filterMap, h, ih]
    | some old => simp [List.foldl, List.filterMap, h, ih]

theorem depsLookup_append_single (bs : List chart.Dependency)
    (d0 : chart.Dependency) (n : String) (h : d0.name ≠ n) :
    chart.depsLookup (bs ++ [d0]) n = chart.depsLookup bs n := by
  unfold chart.depsLookup
  rw [List.foldl_append]
  simp [h]

/-! ## Lemmas about the scanner's list-index map -/

theorem miLookup_dropGE_self (m : List (Nat × Nat)) (k : Nat) :
    directives.miLookup (directives.miDropGE m k) k = none := by
  induction m with
  | nil => rfl
  | cons p ps ih =>
    by_cases hp : p.1 < k
    · have hne : ¬(p.1 = k) := by omega
      simpa [directives.miDropGE, directives.miLookup, hp, hne, List.find?]
        using ih
    · simpa [directives.miDropGE, directives.miLookup, hp] using ih

theorem miLookup_miSet_self (m : List (Nat × Nat)) (k v : Nat) :
    directives.miLookup (directives.miSet m k v) k = some v := by
  induction m with
  | nil => simp [directives.miSet, directives.miLookup, List.find?]
  | cons p ps ih =>
    by_cases hp : p.1 = k
    · simp [directives.miSet, directives.miLookup, hp, List.find?]
    · simpa [directives.miSet, directives.miLookup, hp, List.find?] using ih

theorem miLookup_dropGE_lt (m : List (Nat × Nat)) (k j : Nat) (h : k < j) :
    directives.miLookup (directives.miDropGE m j) k = directives.miLookup m k := by
  induction m with
  | nil => rfl
  | cons p ps ih =>
    by_cases hp : p.1 < j
    · by_cases hk : p.1 = k
      · simp [directives.miDropGE, directives.miLookup, hp, hk, List.find?, h]
      · simpa [directives.miDropGE, directives.miLookup, hp, hk, List.find?]
          using ih
    · have hk : ¬(p.1 = k) := by omega
      simpa [directives.miDropGE, directives.miLookup, hp, hk, List.find?]
        using ih


/-! ## Claim theorems -/

/-- C7: `ComputeChangeLevel` equals the `Max`-fold of the
application-version comparison with the per-shared-dependency
comparisons; it is at least the application-version comparison and at
least every shared dependency's comparison; and a dependency present
in only one of the two lists never changes the result. -/
theorem c7_computeChangeLevel (base cur : chart.Meta) :
    chart.ComputeChangeLevel base cur =
      (chart.sharedLevels base cur).foldl semverutil.Max
        (semverutil.Compare base.appVersion cur.appVersion) ∧
    semverutil.Compare base.appVersion cur.appVersion ≤
      chart.ComputeChangeLevel base cur ∧
    (∀ d ∈ cur.dependencies, ∀ old,
      chart.depsLookup base.dependencies d.name = some old →
      semverutil.Compare old d.version ≤ chart.ComputeChangeLevel base cur) ∧
    (∀ d0 : chart.Dependency, chart.depsLookup base.dependencies d0.name = none →
      chart.ComputeChangeLevel base
        { cur with dependencies := cur.dependencies ++ [d0] } =
        chart.ComputeChangeLevel base cur) ∧
    (∀ d0 : chart.Dependency, (∀ dc ∈ cur.dependencies, dc.name ≠ d0.name) →
      chart.ComputeChangeLevel
        { base with dependencies := base.dependencies ++ [d0] } cur =
        chart.ComputeChangeLevel base cur) := by
  have heq : chart.ComputeChangeLevel base cur =
      (chart.sharedLevels base cur).foldl semverutil.Max
        (semverutil.Compare base.appVersion cur.appVersion) := by
    unfold chart.ComputeChangeLevel chart.sharedLevels
    exact computeChangeLevel_foldl_aux base.dependencies cur.dependencies _
  refine ⟨heq, ?_, ?_, ?_, ?_⟩
  · rw [heq]; exact le_foldl_Max _ _
  · intro d hd old hold
    rw [heq]
    apply mem_le_foldl_Max
    unfold chart.sharedLevels
    rw [List.mem_filterMap]
    exact ⟨d, hd, by rw [hold]; rfl⟩
  · intro d0 h0
    unfold chart.ComputeChangeLevel
    simp only [List.foldl_append, List.foldl_cons, List.foldl_nil, h0]
  · intro d0 h0
    unfold chart.ComputeChangeLevel
    simp only
    apply List.foldl_ext
    intro a dc hdc
    rw [depsLookup_append_single _ _ _ (Ne.symm (h0 dc hdc))]

/-- C7 witness: a concrete shared dependency's comparison bounds the
computed level. -/
theorem c7_witness :
    semverutil.Compare "19.0.0" "20.0.0" ≤
      chart.ComputeChangeLevel
        ⟨"x", "1.0.0", "1.2.3", [⟨"redis", "19.0.0", ""⟩]⟩
        ⟨"x", "1.0.1", "1.3.0", [⟨"redis", "20.0.0", ""⟩]⟩ :=
  (c7_computeChangeLevel _ _).2.2.1 ⟨"redis", "20.0.0", ""⟩ (by decide)
    "19.0.0" (by decide)

/-- C8 counterexample: at level `none`, `BumpChartVersion` re-renders
the parsed version instead of returning the current text unchanged
(`v1.2.3` becomes `1.2.3`). -/
theorem c8_counterexample :
    semverutil.BumpChartVersion "v1.2.3" semverutil.NoChange = some "1.2.3" ∧
      "1.2.3" ≠ "v1.2.3" := by
  constructor
  · decide
  · decide

/-- C8 (amended): `BumpChartVersion` succeeds exactly when the current
text parses; `major`/`minor`/`patch` produce the stated arithmetic and
every other level (including `none`) the canonical re-rendering of the
parsed version; rendering round-trips through `Parse`, so level `none`
returns the text unchanged exactly on canonical `x.y.z` texts. -/
theorem c8_bumpChartVersion (cur : String) (lvl : Int) :
    ((semverutil.BumpChartVersion cur lvl).isSome ↔ (semverutil.Parse cur).isSome) ∧
    (∀ v, semverutil.Parse cur = some v →
      semverutil.BumpChartVersion cur lvl =
        some (if lvl = semverutil.MajorChange then
              semverutil.renderV (v.major + 1) 0 0
          else if lvl = semverutil.MinorChange then
              semverutil.renderV v.major (v.minor + 1) 0
          else if lvl = semverutil.PatchChange then
              semverutil.renderV v.major v.minor (v.patch + 1)
          else semverutil.renderV v.major v.minor v.patch)) ∧
    (∀ x y z : Int, semverutil.Parse (semverutil.renderV x y z) = some ⟨x, y, z⟩) ∧
    (∀ v, semverutil.Parse cur = some v →
      cur = semverutil.renderV v.major v.minor v.patch →
      semverutil.BumpChartVersion cur semverutil.NoChange = some cur) := by
  refine ⟨?_, ?_, parse_renderV, ?_⟩
  · cases hp : semverutil.Parse cur with
    | none => simp [semverutil.BumpChartVersion, hp]
    | some v =>
      simp only [semverutil.BumpChartVersion, hp, Option.isSome_some, iff_true]
      split <;> try simp
      split <;> try simp
      split <;> simp
  · intro v hv
    simp only [semverutil.BumpChartVersion, hv]
    split_ifs <;> rfl
  · intro v hv hcanon
    simp only [semverutil.BumpChartVersion, hv]
    have h3 : ¬(semverutil.NoChange = semverutil.MajorChange) := by decide
    have h2 : ¬(semverutil.NoChange = semverutil.MinorChange) := by decide
    have h1 : ¬(semverutil.NoChange = semverutil.PatchChange) := by decide
    rw [if_neg h3, if_neg h2, if_neg h1, ← hcanon]

/-- C8 witness: the amended formula evaluated at `1.2.3` with a minor
bump. -/
theorem c8_witness :
    semverutil.BumpChartVersion "1.2.3" semverutil.MinorChange = some "1.3.0" := by
  rw [(c8_bumpChartVersion "1.2.3" semverutil.MinorChange).2.1 ⟨1, 2, 3⟩ (by decide)]
  decide

/-- C3: the list-index counter is deleted by `popToIndent` (whose code
drops keys at the same indent, not only deeper ones, contradicting its
comment) before `applyLine` reads it, so after any list-item line the
tracked index at that indent is 0 — the `idx = prev + 1` increment is
unreachable; concretely, the scanner addresses the second sequence
item of `exLines` as index 0 (`$.items[0].tag`), where the claim
requires index 1. -/
theorem c3_listIndex_always_zero :
    (∀ (ps : directives.PathStack) (li : directives.LineInfo),
      li.isListItem = true →
      directives.miLookup
        (directives.applyLine ps li).listIndexByIndent li.indent = some 0) ∧
    directives.scanLines exLines = .ok [exDir] := by
  constructor
  · intro ps li hli
    have h0 : directives.miLookup
        (directives.miDropGE ps.listIndexByIndent li.indent) li.indent = none :=
      miLookup_dropGE_self _ _
    by_cases hk : li.key = ""
    · simp [directives.applyLine, directives.popToIndent, hli, h0, hk]
      exact miLookup_miSet_self _ _ _
    · simp [directives.applyLine, directives.popToIndent, hli, h0, hk]
      rw [miLookup_dropGE_lt _ _ _ (Nat.lt_succ_self _)]
      exact miLookup_miSet_self _ _ _
  · rfl

/-- C3 witness: the general fact applied to a bare list item at
indent 2 on an empty stack. -/
theorem c3_witness :
    directives.miLookup
      (directives.applyLine {} { indent := 2, isListItem := true }).listIndexByIndent
      2 = some 0 :=
  c3_listIndex_always_zero.1 {} { indent := 2, isListItem := true } rfl

/-- C1: on `exLines` the scanner computes `$.items[0].tag` for the
annotated `tag: b` line in the second sequence item; the resolver
accepts that address, but it resolves to the first item's value `"a"`,
not to the annotated line's own scalar `"b"` — address agreement
fails as soon as a sequence has two items, because of the index bug of
C3. -/
theorem c1_address_disagreement :
    directives.scanLines exLines = .ok [exDir] ∧
    exDir.yamlPath = "$.items[0].tag" ∧
    exDir.currentText = "b" ∧
    yamlutil.GetString exDoc "$.items[0].tag" = .ok ("a", true) ∧
    ("a" : String) ≠ "b" :=
  ⟨rfl, rfl, rfl, rfl, by decide⟩

/-- C5 counterexample: navigating `$.a.b` in a document where `a` is
a scalar is a type-mismatch failure inside the filter, yet `GetString`
returns `found=false` with no error — it does not fail with
`TypeMismatch`. -/
theorem c5_counterexample :
    yamlutil.navigate exScalarDoc [.field "a", .field "b"] =
      .error .typeMismatch ∧
    yamlutil.GetString exScalarDoc "$.a.b" = .ok ("", false) :=
  ⟨rfl, rfl⟩

/-- C5 (amended): for any parseable address, `Get` never fails — every
navigation failure, a missing intermediate key and a wrong-shape
intermediate node alike, is reported as `found=false` with a nil
error. -/
theorem c5_get_never_fails (doc : yamlutil.Value) (addr : String)
    (steps : List yamlutil.PathStep)
    (hp : yamlutil.parseSimpleYAMLPath addr = .ok steps) :
    (∀ e, yamlutil.GetString doc addr ≠ .error e) ∧
    (∀ e, yamlutil.navigate doc steps = .error e →
      yamlutil.GetString doc addr = .ok ("", false)) := by
  constructor
  · intro e
    simp only [yamlutil.GetString, hp]
    cases hn : yamlutil.navigate doc steps with
    | error e2 => simp
    | ok out => cases out <;> simp
  · intro e hn
    simp only [yamlutil.GetString, hp, hn]

/-- C5 witness: the amended statement instantiated on the wrong-shape
document. -/
theorem c5_witness :
    yamlutil.GetString exScalarDoc "$.a.b" = .ok ("", false) :=
  (c5_get_never_fails exScalarDoc "$.a.b" [.field "a", .field "b"] rfl).2
    .typeMismatch rfl

/-- C10: two annotation lines with no scalar-assignment line between
them scan without error; the second silently replaces the first as the
pending annotation, and the following scalar line yields exactly one
directive carrying the second annotation's fields (and the second
line's number). -/
theorem c10_pending_overwrite (l1 l2 l3 a1 a2 : String)
    (d1 d2 : directives.ImageDirective) (info : directives.LineInfo)
    (h1 : directives.matchDirective l1 = some a1)
    (hp1 : directives.parseDirectiveArgs a1 = .ok d1)
    (h2 : directives.matchDirective l2 = some a2)
    (hp2 : directives.parseDirectiveArgs a2 = .ok d2)
    (h3 : directives.matchDirective l3 = none)
    (h3b : ¬(trimSpace l3.data = [] ∨ (trimSpace l3.data).head? = some '#'))
    (hpl : directives.parseYAMLContentLine l3 = .ok info)
    (hsc : info.isScalarKV = true) :
    directives.scanLines [l1, l2, l3] =
      .ok [{ d2 with
             line := 2
             key := info.key
             currentText := info.valueText
             yamlPath := directives.currentPathWithLeaf
               (directives.applyLine {} info) info }] := by
  simp only [directives.scanLines, directives.scanLoop, h1, hp1, h2, hp2, h3,
    hpl, hsc, h3b, if_false, ite_false, directives.sortByLine,
    directives.insertByLine, List.foldr, Except.map]
  rfl

/-- C10 witness: two annotations then `tag: v1`; the single directive
carries the second annotation's image. -/
theorem c10_witness :
    directives.scanLines
      ["# bump: image=a.b/c1", "# bump: image=d.e/f2", "tag: v1"] =
      .ok [{ line := 2, key := "tag", yamlPath := "$.tag",
             currentText := "v1", image := "d.e/f2", strategy := "semver" }] := by
  rw [c10_pending_overwrite "# bump: image=a.b/c1" "# bump: image=d.e/f2"
    "tag: v1" "image=a.b/c1" "image=d.e/f2"
    { image := "a.b/c1", strategy := "semver" }
    { image := "d.e/f2", strategy := "semver" }
    { indent := 0, key := "tag", valueText := "v1", isScalarKV := true }
    (by decide) (by decide) (by decide) (by decide) (by decide) (by decide)
    (by decide) (by decide)]
  decide

/-- C9 counterexample: `allowPrerelease=1`, `=t` and `=TRUE` are all
accepted (Go `strconv.ParseBool` literals) with the flag set, where
the claim requires a `MalformedDirective` error. -/
theorem c9_counterexample :
    directives.parseDirectiveArgs "image=ghcr.io/x/y allowPrerelease=1" =
      .ok { image := "ghcr.io/x/y", strategy := "semver",
            allowPrerelease := true } ∧
    directives.parseDirectiveArgs "image=ghcr.io/x/y allowPrerelease=t" =
      .ok { image := "ghcr.io/x/y", strategy := "semver",
            allowPrerelease := true } ∧
    directives.parseDirectiveArgs "image=ghcr.io/x/y allowPrerelease=TRUE" =
      .ok { image := "ghcr.io/x/y", strategy := "semver",
            allowPrerelease := true } := by
  refine ⟨by decide, by decide, by decide⟩


theorem dropWhileP_eq_self {p : Char → Bool} {cs : List Char}
    (h : ∀ c ∈ cs, p c = false) : cs.dropWhile p = cs := by
  cases cs with
  | nil => rfl
  | cons c rest => simp [List.dropWhile, h c (by simp)]

theorem trimCharList_no {q : Char} {cs : List Char} (h : ∀ c ∈ cs, c ≠ q) :
    directives.trimCharList q cs = cs := by
  unfold directives.trimCharList
  have h1 : cs.dropWhile (· = q) = cs :=
    dropWhileP_eq_self (fun c hc => by simp [h c hc])
  rw [h1]
  have h2 : cs.reverse.dropWhile (· = q) = cs.reverse :=
    dropWhileP_eq_self (fun c hc => by simp [h c (List.mem_reverse.mp hc)])
  rw [h2, List.reverse_reverse]

theorem splitArgsLoop_plain_front (p : List Char)
    (h : ∀ c ∈ p, ¬(c = ' ' ∨ c = '\t') ∧ c ≠ '\'' ∧ c ≠ '"') :
    ∀ rest cur out, directives.splitArgsLoop (p ++ rest) cur false false out =
      directives.splitArgsLoop rest (cur ++ p) false false out := by
  induction p with
  | nil => intro rest cur out; simp
  | cons c cs ih =>
    intro rest cur out
    obtain ⟨h1, h2, h3⟩ := h c (by simp)
    rw [List.cons_append, directives.splitArgsLoop]
    simp only [h1, h2, h3, if_false, ite_false, Bool.or_self, Bool.or_false]
    rw [ih (fun x hx => h x (by simp [hx])) rest (cur ++ [c]) out]
    simp

theorem cutChar_plain_front (sep : Char) (p : List Char)
    (h : ∀ c ∈ p, c ≠ sep) :
    ∀ rest, directives.cutChar sep (p ++ sep :: rest) = some (p, rest) := by
  induction p with
  | nil => intro rest; simp [directives.cutChar]
  | cons c cs ih =>
    intro rest
    have h1 : c ≠ sep := h c (by simp)
    rw [List.cons_append, directives.cutChar]
    simp only [h1, if_false, ite_false]
    rw [ih (fun x hx => h x (by simp [hx])) rest]
    rfl

theorem parseKvTokens_cons_eq (kv : List (String × String)) (a : String)
    (rest : List String) (k v : List Char)
    (hcut : directives.cutChar '=' a.data = some (k, v))
    (hk : String.mk (trimSpace k) ≠ "") (hv : String.mk (trimSpace v) ≠ "") :
    directives.parseKvTokens kv (a :: rest) =
      directives.parseKvTokens
        (directives.kvSet kv (String.mk (trimSpace k)) (String.mk (trimSpace v)))
        rest := by
  simp only [directives.parseKvTokens, hcut]
  rw [if_neg (by push_neg; exact ⟨hk, hv⟩)]

/-- C9 (amended): for any token value `v` that survives tokenisation
unchanged (no whitespace and no quote characters), `allowPrerelease=v`
is accepted exactly when `v` is one of the twelve Go
`strconv.ParseBool` literals (1, t, T, TRUE, true, True and their
false counterparts), with the flag set to the parsed value; any other
value is a `MalformedDirective` error (`badBool`). -/
theorem c9_allowPrerelease_goParseBool (v : String) (hne : v ≠ "")
    (hclean : ∀ c ∈ v.data, isWS c = false ∧ c ≠ '\'' ∧ c ≠ '"') :
    (∀ b, directives.goParseBool v = some b →
      directives.parseDirectiveArgs ("image=a.b/c allowPrerelease=" ++ v) =
        .ok { image := "a.b/c", strategy := "semver", allowPrerelease := b }) ∧
    (directives.goParseBool v = none →
      directives.parseDirectiveArgs ("image=a.b/c allowPrerelease=" ++ v) =
        .error .badBool) := by
  obtain ⟨vd⟩ := v
  have hclean2 : ∀ c ∈ vd, isWS c = false ∧ c ≠ '\'' ∧ c ≠ '"' := hclean
  have hne2 : vd ≠ [] := by
    intro hc
    exact hne (by rw [hc])
  have hplain : ∀ c ∈ vd, ¬(c = ' ' ∨ c = '\t') ∧ c ≠ '\'' ∧ c ≠ '"' := by
    intro c hc
    obtain ⟨h1, h2, h3⟩ := hclean2 c hc
    refine ⟨?_, h2, h3⟩
    intro hor
    rcases hor with h' | h' <;> (subst h'; simp [isWS] at h1)
  have htrim : trimSpace vd = vd :=
    trimSpace_no_ws (fun c hc => (hclean2 c hc).1)
  have hq1 : directives.trimCharList '"' vd = vd :=
    trimCharList_no (fun c hc => (hclean2 c hc).2.2)
  have hq2 : directives.trimCharList '\'' vd = vd :=
    trimCharList_no (fun c hc => (hclean2 c hc).2.1)
  -- the split loop: the first token flushes at the space, the second
  -- token is the tail starting at allowPrerelease
  have hplainloop : ∀ (p : List Char),
      (∀ c ∈ p, ¬(c = ' ' ∨ c = '\t') ∧ c ≠ '\'' ∧ c ≠ '"') →
      ∀ cur out, directives.splitArgsLoop p cur false false out =
        some (directives.flushTok (cur ++ p) out) := by
    intro p hp cur out
    have := splitArgsLoop_plain_front p hp [] cur out
    simpa using this
  have hloop : directives.splitArgsLoop ("image=a.b/c allowPrerelease=".data ++ vd)
      [] false false [] =
      some ["image=a.b/c", String.mk ("allowPrerelease=".data ++ vd)] := by
    have e1 : "image=a.b/c allowPrerelease=".data ++ vd =
        "image=a.b/c".data ++ (' ' :: ("allowPrerelease=".data ++ vd)) := rfl
    rw [e1, splitArgsLoop_plain_front "image=a.b/c".data (by decide)]
    show directives.splitArgsLoop ("allowPrerelease=".data ++ vd) [] false false
        ["image=a.b/c"] = _
    rw [splitArgsLoop_plain_front "allowPrerelease=".data (by decide)]
    rw [hplainloop vd hplain]
    rfl
  have hargs : directives.splitArgs ("image=a.b/c allowPrerelease=" ++ String.mk vd) =
      some ["image=a.b/c", String.mk ("allowPrerelease=".data ++ vd)] := by
    unfold directives.splitArgs
    show (directives.splitArgsLoop ("image=a.b/c allowPrerelease=".data ++ vd)
      [] false false []).map _ = _
    rw [hloop]
    show some (List.map directives.stripQuotes _) = _
    rw [List.map_cons, List.map_cons, List.map_nil]
    have ht1 : directives.stripQuotes "image=a.b/c" = "image=a.b/c" := rfl
    have ht2 : directives.stripQuotes (String.mk ("allowPrerelease=".data ++ vd)) =
        String.mk ("allowPrerelease=".data ++ vd) := by
      unfold directives.stripQuotes
      rw [show (String.mk ("allowPrerelease=".data ++ vd)).data =
        "allowPrerelease".data ++ '=' :: vd from rfl]
      rw [cutChar_plain_front '=' "allowPrerelease".data (by decide)]
      show String.mk ("allowPrerelease".data ++ '=' ::
        directives.trimCharList '\'' (directives.trimCharList '"' (trimSpace vd))) = _
      rw [htrim, hq1, hq2]
      rfl
    rw [ht1, ht2]
  have hv_ne : String.mk vd ≠ "" := by
    intro hc
    apply hne2
    have h' : (String.mk vd).data = ("" : String).data := by rw [hc]
    simpa using h'
  have hcut2 : directives.cutChar '='
      (String.mk ("allowPrerelease=".data ++ vd)).data =
      some ("allowPrerelease".data, vd) := by
    rw [show (String.mk ("allowPrerelease=".data ++ vd)).data =
      "allowPrerelease".data ++ '=' :: vd from rfl]
    exact cutChar_plain_front '=' "allowPrerelease".data (by decide) vd
  have hstep2 : directives.parseKvTokens []
      ["image=a.b/c", String.mk ("allowPrerelease=".data ++ vd)] =
      .ok [("image", "a.b/c"), ("allowPrerelease", String.mk vd)] := by
    have h1 : directives.parseKvTokens []
        ["image=a.b/c", String.mk ("allowPrerelease=".data ++ vd)] =
        directives.parseKvTokens [("image", "a.b/c")]
          [String.mk ("allowPrerelease=".data ++ vd)] := rfl
    rw [h1]
    rw [parseKvTokens_cons_eq [("image", "a.b/c")] _ []
      "allowPrerelease".data vd hcut2 (by decide)
      (by rw [htrim]; exact hv_ne)]
    simp only [htrim]
    rw [show String.mk (trimSpace ("allowPrerelease".data)) = "allowPrerelease"
      from rfl]
    show Except.ok (directives.kvSet [("image", "a.b/c")] "allowPrerelease"
      (String.mk vd)) = _
    simp [directives.kvSet]
  refine ⟨?_, ?_⟩
  · intro b hb
    simp only [directives.parseDirectiveArgs, hargs, hstep2]
    simp [directives.kvGet, directives.kvHas, directives.containsChar,
      List.find?, hb]
  · intro hb
    simp only [directives.parseDirectiveArgs, hargs, hstep2]
    simp [directives.kvGet, directives.kvHas, directives.containsChar,
      List.find?, hb]

/-- C9 witness: a non-ParseBool value is rejected. -/
theorem c9_witness :
    directives.parseDirectiveArgs "image=a.b/c allowPrerelease=yes" =
      .error .badBool :=
  (c9_allowPrerelease_goParseBool "yes" (by decide) (by decide)).2 rfl



theorem msGet_msSet_self (ms : List (String × yamlutil.Value)) (k : String)
    (v : yamlutil.Value) :
    yamlutil.msGet (yamlutil.msSet ms k v) k = some v := by
  induction ms with
  | nil => simp [yamlutil.msSet, yamlutil.msGet, List.find?]
  | cons p ps ih =>
    by_cases hp : p.1 = k
    · simp [yamlutil.msSet, yamlutil.msGet, hp, List.find?]
    · simpa [yamlutil.msSet, yamlutil.msGet, hp, List.find?] using ih

theorem navigate_setAtPath (v : String) :
    ∀ (steps : List yamlutil.PathStep) (doc doc2 : yamlutil.Value),
      yamlutil.setAtPath doc steps v = .ok doc2 →
      yamlutil.navigate doc2 steps = .ok (.str v) := by
  intro steps
  induction steps with
  | nil =>
    intro doc doc2 h
    simp [yamlutil.setAtPath] at h
  | cons s rest ih =>
    intro doc doc2 h
    cases rest with
    | nil =>
      cases s with
      | field k =>
        cases doc with
        | map ms =>
          simp only [yamlutil.setAtPath, yamlutil.leafSet] at h
          injection h with h
          subst h
          simp only [yamlutil.navigate, msGet_msSet_self]
        | str s => simp [yamlutil.setAtPath, yamlutil.leafSet] at h
        | intg n => simp [yamlutil.setAtPath, yamlutil.leafSet] at h
        | boolv b => simp [yamlutil.setAtPath, yamlutil.leafSet] at h
        | null => simp [yamlutil.setAtPath, yamlutil.leafSet] at h
        | seq xs => simp [yamlutil.setAtPath, yamlutil.leafSet] at h
      | index i =>
        cases doc with
        | seq xs =>
          simp only [yamlutil.setAtPath, yamlutil.leafSet] at h
          by_cases hb : 0 ≤ i ∧ i < (xs.length : Int)
          · rw [if_pos hb] at h
            injection h with h
            subst h
            have hb2 : 0 ≤ i ∧ i < ((xs.set i.toNat (.str v)).length : Int) := by
              simpa using hb
            simp only [yamlutil.navigate, dif_pos hb2]
            rw [List.get_set_eq]
          · rw [if_neg hb] at h
            exact absurd h (by simp)
        | str s => simp [yamlutil.setAtPath, yamlutil.leafSet] at h
        | intg n => simp [yamlutil.setAtPath, yamlutil.leafSet] at h
        | boolv b => simp [yamlutil.setAtPath, yamlutil.leafSet] at h
        | null => simp [yamlutil.setAtPath, yamlutil.leafSet] at h
        | map ms => simp [yamlutil.setAtPath, yamlutil.leafSet] at h
    | cons r rs =>
      cases s with
      | field k =>
        cases doc with
        | map ms =>
          simp only [yamlutil.setAtPath] at h
          cases hg : yamlutil.msGet ms k with
          | none =>
            simp only [hg] at h
            exact Except.noConfusion h
          | some child =>
            simp only [hg] at h
            cases hs : yamlutil.setAtPath child (r :: rs) v with
            | error e =>
              simp only [hs] at h
              exact Except.noConfusion h
            | ok child2 =>
              simp only [hs] at h
              injection h with h
              subst h
              simp only [yamlutil.navigate, msGet_msSet_self]
              exact ih child child2 hs
        | str s => simp [yamlutil.setAtPath] at h
        | intg n => simp [yamlutil.setAtPath] at h
        | boolv b => simp [yamlutil.setAtPath] at h
        | null => simp [yamlutil.setAtPath] at h
        | seq xs => simp [yamlutil.setAtPath] at h
      | index i =>
        cases doc with
        | seq xs =>
          simp only [yamlutil.setAtPath] at h
          by_cases hb : 0 ≤ i ∧ i < (xs.length : Int)
          · rw [dif_pos hb] at h
            cases hs : yamlutil.setAtPath (xs.get ⟨i.toNat, by omega⟩) (r :: rs) v with
            | error e =>
              simp only [hs] at h
              exact Except.noConfusion h
            | ok x2 =>
              simp only [hs] at h
              injection h with h
              subst h
              have hb2 : 0 ≤ i ∧ i < ((xs.set i.toNat x2).length : Int) := by
                simpa using hb
              simp only [yamlutil.navigate, dif_pos hb2]
              rw [List.get_set_eq]
              exact ih _ _ hs
          · rw [dif_neg hb] at h
            exact absurd h (by simp)
        | str s => simp [yamlutil.setAtPath] at h
        | intg n => simp [yamlutil.setAtPath] at h
        | boolv b => simp [yamlutil.setAtPath] at h
        | null => simp [yamlutil.setAtPath] at h
        | map ms => simp [yamlutil.setAtPath] at h



theorem setAtPath_cons_map_none {ms : List (String × yamlutil.Value)}
    {k : String} (hg : yamlutil.msGet ms k = none)
    (rest : List yamlutil.PathStep) (hne : rest ≠ []) (v : String) :
    yamlutil.setAtPath (.map ms) (.field k :: rest) v = .error .pathNotFound := by
  cases rest with
  | nil => exact absurd rfl hne
  | cons r rs => simp only [yamlutil.setAtPath, hg]

theorem setAtPath_cons_map_found {ms : List (String × yamlutil.Value)}
    {k : String} {child : yamlutil.Value}
    (hg : yamlutil.msGet ms k = some child)
    (rest : List yamlutil.PathStep) (hne : rest ≠ []) (v : String) :
    yamlutil.setAtPath (.map ms) (.field k :: rest) v =
      match yamlutil.setAtPath child rest v with
      | .ok c2 => .ok (.map (yamlutil.msSet ms k c2))
      | .error e => .error e := by
  cases rest with
  | nil => exact absurd rfl hne
  | cons r rs => simp only [yamlutil.setAtPath, hg]

theorem setAtPath_cons_field_mismatch {doc : yamlutil.Value} {k : String}
    (hsh : ∀ ms, doc ≠ .map ms)
    (rest : List yamlutil.PathStep) (hne : rest ≠ []) (v : String) :
    yamlutil.setAtPath doc (.field k :: rest) v = .error .typeMismatch := by
  cases rest with
  | nil => exact absurd rfl hne
  | cons r rs =>
    cases doc with
    | map ms => exact absurd rfl (hsh ms)
    | str s => rfl
    | intg n => rfl
    | boolv b => rfl
    | null => rfl
    | seq xs => rfl

theorem setAtPath_cons_seq_in {xs : List yamlutil.Value} {i : Int}
    (hb : 0 ≤ i ∧ i < (xs.length : Int))
    (rest : List yamlutil.PathStep) (hne : rest ≠ []) (v : String) :
    yamlutil.setAtPath (.seq xs) (.index i :: rest) v =
      match yamlutil.setAtPath (xs.get ⟨i.toNat, by omega⟩) rest v with
      | .ok x2 => .ok (.seq (xs.set i.toNat x2))
      | .error e => .error e := by
  cases rest with
  | nil => exact absurd rfl hne
  | cons r rs => simp only [yamlutil.setAtPath, dif_pos hb]

theorem setAtPath_cons_seq_out {xs : List yamlutil.Value} {i : Int}
    (hb : ¬(0 ≤ i ∧ i < (xs.length : Int)))
    (rest : List yamlutil.PathStep) (hne : rest ≠ []) (v : String) :
    yamlutil.setAtPath (.seq xs) (.index i :: rest) v = .error .pathNotFound := by
  cases rest with
  | nil => exact absurd rfl hne
  | cons r rs => simp only [yamlutil.setAtPath, dif_neg hb]

theorem setAtPath_cons_index_mismatch {doc : yamlutil.Value} {i : Int}
    (hsh : ∀ xs, doc ≠ .seq xs)
    (rest : List yamlutil.PathStep) (hne : rest ≠ []) (v : String) :
    yamlutil.setAtPath doc (.index i :: rest) v = .error .typeMismatch := by
  cases rest with
  | nil => exact absurd rfl hne
  | cons r rs =>
    cases doc with
    | seq xs => exact absurd rfl (hsh xs)
    | str s => rfl
    | intg n => rfl
    | boolv b => rfl
    | null => rfl
    | map ms => rfl

theorem setAtPath_append_spec (leaf : yamlutil.PathStep) (v : String) :
    ∀ (pre : List yamlutil.PathStep) (doc : yamlutil.Value),
      (∀ e, yamlutil.navigate doc pre = .error e →
        yamlutil.setAtPath doc (pre ++ [leaf]) v = .error e) ∧
      (∀ parent, yamlutil.navigate doc pre = .ok parent →
        (∀ e, yamlutil.leafSet parent leaf v = .error e →
          yamlutil.setAtPath doc (pre ++ [leaf]) v = .error e) ∧
        (∀ r, yamlutil.leafSet parent leaf v = .ok r →
          ∃ doc2, yamlutil.setAtPath doc (pre ++ [leaf]) v = .ok doc2)) := by
  intro pre
  induction pre with
  | nil =>
    intro doc
    constructor
    · intro e he
      simp only [yamlutil.navigate] at he
      exact Except.noConfusion he
    · intro parent hp
      simp only [yamlutil.navigate] at hp
      injection hp with hp
      subst hp
      constructor
      · intro e he
        simp only [List.nil_append, yamlutil.setAtPath]
        exact he
      · intro r hr
        exact ⟨r, by simp only [List.nil_append, yamlutil.setAtPath]; exact hr⟩
  | cons s ps ih =>
    intro doc
    have hne : ps ++ [leaf] ≠ [] := by simp
    cases s with
    | field k =>
      cases doc with
      | map ms =>
        cases hg : yamlutil.msGet ms k with
        | none =>
          refine ⟨?_, ?_⟩
          · intro e he
            simp only [yamlutil.navigate, hg] at he
            injection he with he
            subst he
            rw [List.cons_append, setAtPath_cons_map_none hg _ hne]
          · intro parent hp
            simp only [yamlutil.navigate, hg] at hp
            exact Except.noConfusion hp
        | some child =>
          refine ⟨?_, ?_⟩
          · intro e he
            simp only [yamlutil.navigate, hg] at he
            have h2 := (ih child).1 e he
            rw [List.cons_append, setAtPath_cons_map_found hg _ hne, h2]
          · intro parent hp
            simp only [yamlutil.navigate, hg] at hp
            obtain ⟨h1, h2⟩ := (ih child).2 parent hp
            refine ⟨?_, ?_⟩
            · intro e he
              rw [List.cons_append, setAtPath_cons_map_found hg _ hne, h1 e he]
            · intro r hr
              obtain ⟨doc2, hd⟩ := h2 r hr
              refine ⟨.map (yamlutil.msSet ms k doc2), ?_⟩
              rw [List.cons_append, setAtPath_cons_map_found hg _ hne, hd]
      | str s2 =>
        refine ⟨?_, ?_⟩
        · intro e he
          simp only [yamlutil.navigate] at he
          injection he with he
          subst he
          rw [List.cons_append,
            setAtPath_cons_field_mismatch (fun _ h => yamlutil.Value.noConfusion h)
              _ hne]
        · intro parent hp
          simp only [yamlutil.navigate] at hp
          exact Except.noConfusion hp
      | intg n =>
        refine ⟨?_, ?_⟩
        · intro e he
          simp only [yamlutil.navigate] at he
          injection he with he
          subst he
          rw [List.cons_append,
            setAtPath_cons_field_mismatch (fun _ h => yamlutil.Value.noConfusion h)
              _ hne]
        · intro parent hp
          simp only [yamlutil.navigate] at hp
          exact Except.noConfusion hp
      | boolv b =>
        refine ⟨?_, ?_⟩
        · intro e he
          simp only [yamlutil.navigate] at he
          injection he with he
          subst he
          rw [List.cons_append,
            setAtPath_cons_field_mismatch (fun _ h => yamlutil.Value.noConfusion h)
              _ hne]
        · intro parent hp
          simp only [yamlutil.navigate] at hp
          exact Except.noConfusion hp
      | null =>
        refine ⟨?_, ?_⟩
        · intro e he
          simp only [yamlutil.navigate] at he
          injection he with he
          subst he
          rw [List.cons_append,
            setAtPath_cons_field_mismatch (fun _ h => yamlutil.Value.noConfusion h)
              _ hne]
        · intro parent hp
          simp only [yamlutil.navigate] at hp
          exact Except.noConfusion hp
      | seq xs =>
        refine ⟨?_, ?_⟩
        · intro e he
          simp only [yamlutil.navigate] at he
          injection he with he
          subst he
          rw [List.cons_append,
            setAtPath_cons_field_mismatch (fun _ h => yamlutil.Value.noConfusion h)
              _ hne]
        · intro parent hp
          simp only [yamlutil.navigate] at hp
          exact Except.noConfusion hp
    | index i =>
      cases doc with
      | seq xs =>
        by_cases hb : 0 ≤ i ∧ i < (xs.length : Int)
        · refine ⟨?_, ?_⟩
          · intro e he
            simp only [yamlutil.navigate, dif_pos hb] at he
            have h2 := (ih (xs.get ⟨i.toNat, by omega⟩)).1 e he
            rw [List.cons_append, setAtPath_cons_seq_in hb _ hne, h2]
          · intro parent hp
            simp only [yamlutil.navigate, dif_pos hb] at hp
            obtain ⟨h1, h2⟩ := (ih (xs.get ⟨i.toNat, by omega⟩)).2 parent hp
            refine ⟨?_, ?_⟩
            · intro e he
              rw [List.cons_append, setAtPath_cons_seq_in hb _ hne, h1 e he]
            · intro r hr
              obtain ⟨doc2, hd⟩ := h2 r hr
              refine ⟨.seq (xs.set i.toNat doc2), ?_⟩
              rw [List.cons_append, setAtPath_cons_seq_in hb _ hne, hd]
        · refine ⟨?_, ?_⟩
          · intro e he
            simp only [yamlutil.navigate, dif_neg hb] at he
            injection he with he
            subst he
            rw [List.cons_append, setAtPath_cons_seq_out hb _ hne]
          · intro parent hp
            simp only [yamlutil.navigate, dif_neg hb] at hp
            exact Except.noConfusion hp
      | str s2 =>
        refine ⟨?_, ?_⟩
        · intro e he
          simp only [yamlutil.navigate] at he
          injection he with he
          subst he
          rw [List.cons_append,
            setAtPath_cons_index_mismatch (fun _ h => yamlutil.Value.noConfusion h)
              _ hne]
        · intro parent hp
          simp only [yamlutil.navigate] at hp
          exact Except.noConfusion hp
      | intg n =>
        refine ⟨?_, ?_⟩
        · intro e he
          simp only [yamlutil.navigate] at he
          injection he with he
          subst he
          rw [List.cons_append,
            setAtPath_cons_index_mismatch (fun _ h => yamlutil.Value.noConfusion h)
              _ hne]
        · intro parent hp
          simp only [yamlutil.navigate] at hp
          exact Except.noConfusion hp
      | boolv b =>
        refine ⟨?_, ?_⟩
        · intro e he
          simp only [yamlutil.navigate] at he
          injection he with he
          subst he
          rw [List.cons_append,
            setAtPath_cons_index_mismatch (fun _ h => yamlutil.Value.noConfusion h)
              _ hne]
        · intro parent hp
          simp only [yamlutil.navigate] at hp
          exact Except.noConfusion hp
      | null =>
        refine ⟨?_, ?_⟩
        · intro e he
          simp only [yamlutil.navigate] at he
          injection he with he
          subst he
          rw [List.cons_append,
            setAtPath_cons_index_mismatch (fun _ h => yamlutil.Value.noConfusion h)
              _ hne]
        · intro parent hp
          simp only [yamlutil.navigate] at hp
          exact Except.noConfusion hp
      | map ms =>
        refine ⟨?_, ?_⟩
        · intro e he
          simp only [yamlutil.navigate] at he
          injection he with he
          subst he
          rw [List.cons_append,
            setAtPath_cons_index_mismatch (fun _ h => yamlutil.Value.noConfusion h)
              _ hne]
        · intro parent hp
          simp only [yamlutil.navigate] at hp
          exact Except.noConfusion hp



/-- C6: `Set` error taxonomy, with navigation to the leaf's parent made
explicit.  (i) If navigation reaches a parent map, the final field step
always succeeds — the key is replaced, or created when absent — and the
written address then resolves to the new value.  (ii) A leaf sequence
index outside the existing range fails with `pathNotFound`; sequences
are never grown.  (iii) An in-range leaf index replaces the existing
slot, leaving the length unchanged.  (iv) Any navigation failure on an
intermediate segment propagates as that failure: a missing key or
out-of-range intermediate index is `pathNotFound`, a wrong-shape node
is `typeMismatch` (the classification is `navigate`'s, mirroring the
walk loop's `fmt.Errorf` sites). -/
theorem c6_set_taxonomy :
    (∀ (doc : yamlutil.Value) (pre : List yamlutil.PathStep) (k v : String)
      (ms : List (String × yamlutil.Value)),
      yamlutil.navigate doc pre = .ok (.map ms) →
      ∃ doc2, yamlutil.setAtPath doc (pre ++ [.field k]) v = .ok doc2 ∧
        yamlutil.navigate doc2 (pre ++ [.field k]) = .ok (.str v)) ∧
    (∀ (doc : yamlutil.Value) (pre : List yamlutil.PathStep) (i : Int)
      (v : String) (xs : List yamlutil.Value),
      yamlutil.navigate doc pre = .ok (.seq xs) →
      ¬(0 ≤ i ∧ i < (xs.length : Int)) →
      yamlutil.setAtPath doc (pre ++ [.index i]) v = .error .pathNotFound) ∧
    (∀ (xs : List yamlutil.Value) (i : Int) (v : String),
      0 ≤ i → i < (xs.length : Int) →
      yamlutil.leafSet (.seq xs) (.index i) v =
        .ok (.seq (xs.set i.toNat (.str v))) ∧
      (xs.set i.toNat (.str v)).length = xs.length) ∧
    (∀ (doc : yamlutil.Value) (pre : List yamlutil.PathStep)
      (leaf : yamlutil.PathStep) (v : String) (e : yamlutil.PathErr),
      yamlutil.navigate doc pre = .error e →
      yamlutil.setAtPath doc (pre ++ [leaf]) v = .error e) := by
  refine ⟨?_, ?_, ?_, ?_⟩
  · intro doc pre k v ms hnav
    have hleaf : yamlutil.leafSet (.map ms) (.field k) v =
        .ok (.map (yamlutil.msSet ms k (.str v))) := rfl
    obtain ⟨doc2, hd⟩ :=
      ((setAtPath_append_spec (.field k) v pre doc).2 _ hnav).2 _ hleaf
    exact ⟨doc2, hd, navigate_setAtPath v _ doc doc2 hd⟩
  · intro doc pre i v xs hnav hb
    have hleaf : yamlutil.leafSet (.seq xs) (.index i) v =
        .error .pathNotFound := by
      simp only [yamlutil.leafSet, if_neg hb]
    exact ((setAtPath_append_spec (.index i) v pre doc).2 _ hnav).1 _ hleaf
  · intro xs i v h0 hlen
    refine ⟨?_, by simp⟩
    simp only [yamlutil.leafSet, if_pos (show _ ∧ _ from ⟨h0, hlen⟩)]
  · intro doc pre leaf v e hnav
    exact (setAtPath_append_spec leaf v pre doc).1 e hnav

/-- C6 witness: an out-of-range leaf index on a one-element sequence
fails with `pathNotFound`. -/
theorem c6_witness :
    yamlutil.setAtPath (.seq [.str "a"]) [.index 3] "v" =
      .error .pathNotFound := by
  have h := c6_set_taxonomy.2.1 (.seq [.str "a"]) [] 3 "v" [.str "a"] rfl
    (by decide)
  simpa using h

/-- C4: `SetString` idempotence.  If the current leaf's textual form
already equals the new value, `SetString` reports changed=false and
returns the document unchanged; and whatever a first `SetString` call
returns, a second call with the same address and value reports
changed=false and leaves the document untouched — so the rendered
output of both calls is byte-identical (rendering is a function of the
document). -/
theorem c4_setString_idempotent (doc : yamlutil.Value) (addr v : String) :
    (yamlutil.GetString doc addr = .ok (v, true) →
      yamlutil.SetString doc addr v = .ok (false, doc)) ∧
    (∀ c1 d1, yamlutil.SetString doc addr v = .ok (c1, d1) →
      yamlutil.SetString d1 addr v = .ok (false, d1)) := by
  constructor
  · intro hg
    simp [yamlutil.SetString, hg]
  · intro c1 d1 h
    simp only [yamlutil.SetString] at h
    split at h
    · rename_i hshort
      injection h with h
      injection h with h1 h2
      subst h2
      simp only [yamlutil.SetString]
      rw [if_pos hshort]
    · rename_i hshort
      cases hp : yamlutil.parseSimpleYAMLPath addr with
      | error e =>
        simp only [hp] at h
        exact Except.noConfusion h
      | ok steps =>
        simp only [hp] at h
        cases hs : yamlutil.setAtPath doc steps v with
        | error e =>
          simp only [hs] at h
          exact Except.noConfusion h
        | ok doc2 =>
          simp only [hs] at h
          injection h with h
          injection h with h1 h2
          subst h2
          have hnav := navigate_setAtPath v steps doc doc2 hs
          have hget : yamlutil.GetString doc2 addr = .ok (v, true) := by
            simp only [yamlutil.GetString, hp, hnav]
          simp [yamlutil.SetString, hget]

/-- C4 witness: setting `$.version` to `1.2.4` twice; the second call
reports changed=false on the unchanged document. -/
theorem c4_witness :
    yamlutil.SetString (.map [("version", .str "1.2.4")]) "$.version" "1.2.4" =
      .ok (false, .map [("version", .str "1.2.4")]) :=
  (c4_setString_idempotent (.map [("version", .str "1.2.3")])
    "$.version" "1.2.4").2 true (.map [("version", .str "1.2.4")]) rfl


theorem splitCmt_cons2 (c1 c2 : Char) (rest : List Char) :
    docmodel.splitCmt (c1 :: c2 :: rest) =
      if c1 = ' ' ∧ c2 = '#' then ([], some rest)
      else ((c1 :: (docmodel.splitCmt (c2 :: rest)).1),
        (docmodel.splitCmt (c2 :: rest)).2) := rfl

theorem joinCmt_cons (c1 : Char) (v : List Char) (m : Option (List Char)) :
    docmodel.joinCmt (c1 :: v) m = c1 :: docmodel.joinCmt v m := by
  cases m <;> rfl

theorem joinCmt_splitCmt : ∀ cs : List Char,
    docmodel.joinCmt (docmodel.splitCmt cs).1 (docmodel.splitCmt cs).2 = cs
  | [] => rfl
  | [c] => rfl
  | c1 :: c2 :: rest => by
    by_cases h : c1 = ' ' ∧ c2 = '#'
    · obtain ⟨h1, h2⟩ := h
      subst h1
      subst h2
      simp [docmodel.splitCmt, docmodel.joinCmt]
    · have ih := joinCmt_splitCmt (c2 :: rest)
      rw [splitCmt_cons2, if_neg h]
      rw [joinCmt_cons, ih]

theorem takeWhile_spaces_replicate (cs : List Char) :
    cs.takeWhile (· = ' ') =
      List.replicate (cs.takeWhile (· = ' ')).length ' ' := by
  refine List.eq_replicate.mpr ⟨rfl, ?_⟩
  intro b hb
  have := List.mem_takeWhile_imp hb
  simpa using this

theorem parseItem_render {content : List Char} {it : docmodel.CItem}
    (h : docmodel.parseItem content = .ok it) :
    docmodel.renderItem it = content := by
  simp only [docmodel.parseItem] at h
  split at h
  · rename_i hcond
    obtain ⟨hks, hcolon⟩ := hcond
    split at h
    · rename_i x u hdw
      injection h with h
      subst h
      rw [hdw] at hcolon
      simp only [List.head?, Option.some.injEq] at hcolon
      subst hcolon
      simp only [docmodel.renderItem]
      rw [← hdw]
      exact List.takeWhile_append_dropWhile _ _
    · rename_i x vrest hdw
      split at h
      · exact Except.noConfusion h
      · rename_i hv
        injection h with h
        subst h
        rw [hdw] at hcolon
        simp only [List.head?, Option.some.injEq] at hcolon
        simp only [docmodel.renderItem]
        have hj := joinCmt_splitCmt vrest
        rw [show (Option.map String.data
          (Option.map String.mk (docmodel.splitCmt vrest).2)) =
          (docmodel.splitCmt vrest).2 from by
            cases (docmodel.splitCmt vrest).2 <;> rfl]
        rw [hj]
        rw [hcolon] at hdw
        rw [← hdw]
        exact List.takeWhile_append_dropWhile _ _
    · exact Except.noConfusion h
  · injection h with h
    subst h
    simp only [docmodel.renderItem]
    rw [show (Option.map String.data
      (Option.map String.mk (docmodel.splitCmt content).2)) =
      (docmodel.splitCmt content).2 from by
        cases (docmodel.splitCmt content).2 <;> rfl]
    exact joinCmt_splitCmt content



theorem parseEntry_render {n : Nat} {body : List Char} {l : docmodel.CLine}
    (h : docmodel.parseEntry n body = .ok l) :
    ∃ it, l = .entry n it ∧ docmodel.renderItem it = body := by
  simp only [docmodel.parseEntry] at h
  cases hpi : docmodel.parseItem body with
  | error e =>
    rw [hpi] at h
    exact Except.noConfusion h
  | ok it =>
    rw [hpi] at h
    cases it with
    | plain v c => exact Except.noConfusion h
    | containerKey k =>
      injection h with h
      exact ⟨_, h.symm, parseItem_render hpi⟩
    | kv k v c =>
      injection h with h
      exact ⟨_, h.symm, parseItem_render hpi⟩

theorem parseLine_render {cs : List Char} {l : docmodel.CLine}
    (h : docmodel.parseLine cs = .ok l) :
    docmodel.renderLine l = cs := by
  have hsplit : cs.takeWhile (· = ' ') ++ cs.dropWhile (· = ' ') = cs :=
    List.takeWhile_append_dropWhile _ _
  have hrep : List.replicate (cs.takeWhile (· = ' ')).length ' ' =
      cs.takeWhile (· = ' ') := (takeWhile_spaces_replicate cs).symm
  simp only [docmodel.parseLine] at h
  cases hbody : cs.dropWhile (· = ' ') with
  | nil =>
    simp only [hbody] at h
    injection h with h
    subst h
    simp only [docmodel.renderLine]
    have hcs : cs.takeWhile (· = ' ') = cs := by
      conv_rhs => rw [← hsplit]
      rw [hbody, List.append_nil]
    rw [hrep, hcs]
  | cons c rest =>
    simp only [hbody] at h
    by_cases hc1 : c = '#'
    · subst hc1
      rw [if_pos rfl] at h
      injection h with h
      subst h
      simp only [docmodel.renderLine]
      rw [hrep, ← hbody]
      exact hsplit
    · rw [if_neg hc1] at h
      by_cases hc2 : c = '-'
      · subst hc2
        rw [if_pos rfl] at h
        cases rest with
        | nil =>
          have hmt : ([] : List Char).isEmpty = true := rfl
          rw [if_pos hmt] at h
          injection h with h
          subst h
          simp only [docmodel.renderLine]
          rw [hrep, ← hbody]
          exact hsplit
        | cons r2 content2 =>
          rw [if_neg (by simp)] at h
          by_cases hr2 : r2 = ' '
          · subst hr2
            have hhd : ((' ' : Char) :: content2).head? = some ' ' := rfl
            rw [if_pos hhd] at h
            simp only [List.tail_cons] at h
            split at h
            · exact Except.noConfusion h
            · cases hpi : docmodel.parseItem content2 with
              | error e =>
                rw [hpi] at h
                exact Except.noConfusion h
              | ok it =>
                rw [hpi] at h
                injection h with h
                subst h
                simp only [docmodel.renderLine]
                rw [hrep, parseItem_render hpi, ← hbody]
                exact hsplit
          · rw [if_neg (by simp [hr2])] at h
            obtain ⟨it, hl, hr⟩ := parseEntry_render h
            subst hl
            simp only [docmodel.renderLine]
            rw [hrep, hr, ← hbody]
            exact hsplit
      · rw [if_neg hc2] at h
        obtain ⟨it, hl, hr⟩ := parseEntry_render h
        subst hl
        simp only [docmodel.renderLine]
        rw [hrep, hr, ← hbody]
        exact hsplit

theorem splitLF_ne_nil (cs : List Char) : docmodel.splitLF cs ≠ [] := by
  cases cs with
  | nil => simp [docmodel.splitLF]
  | cons c rest =>
    simp only [docmodel.splitLF]
    split
    · simp
    · cases hs : docmodel.splitLF rest with
      | nil => simp
      | cons h t => simp

theorem joinLF_splitLF : ∀ cs : List Char,
    docmodel.joinLF (docmodel.splitLF cs) = cs := by
  intro cs
  induction cs with
  | nil => rfl
  | cons c rest ih =>
    simp only [docmodel.splitLF]
    by_cases hc : c = '\n'
    · subst hc
      rw [if_pos rfl]
      cases hs : docmodel.splitLF rest with
      | nil => exact absurd hs (splitLF_ne_nil rest)
      | cons hd t =>
        rw [hs] at ih
        simp only [docmodel.joinLF, List.nil_append]
        rw [← ih]
    · rw [if_neg hc]
      cases hs : docmodel.splitLF rest with
      | nil => exact absurd hs (splitLF_ne_nil rest)
      | cons hd t =>
        rw [hs] at ih
        cases t with
        | nil =>
          simp only [docmodel.joinLF] at ih ⊢
          rw [ih]
        | cons t1 ts =>
          simp only [docmodel.joinLF] at ih ⊢
          rw [List.cons_append, ih]

theorem mapM_parseLine_render :
    ∀ (pieces : List (List Char)) (d : List docmodel.CLine),
      pieces.mapM (fun p => docmodel.parseLine p) = .ok d →
      d.map docmodel.renderLine = pieces := by
  intro pieces
  induction pieces with
  | nil =>
    intro d h
    simp only [List.mapM_nil, pure] at h
    injection h with h
    subst h
    rfl
  | cons p ps ih =>
    intro d h
    rw [List.mapM_cons] at h
    cases hp : docmodel.parseLine p with
    | error e =>
      rw [hp] at h
      exact Except.noConfusion h
    | ok l =>
      rw [hp] at h
      cases hps : ps.mapM (fun p => docmodel.parseLine p) with
      | error e =>
        rw [hps] at h
        exact Except.noConfusion h
      | ok ds =>
        rw [hps] at h
        injection h with h
        subst h
        simp only [List.map_cons]
        rw [parseLine_render hp, ih ds hps]

/-- C2: rendering an unmodified parsed document reproduces the
original bytes exactly — comment text, comment placement and key/item
order included, since every comment and every entry is re-emitted from
its parsed line in order. -/
theorem c2_parse_render_roundtrip (b : String) (d : List docmodel.CLine)
    (h : docmodel.ParseDoc b = .ok d) : docmodel.RenderDoc d = b := by
  unfold docmodel.ParseDoc at h
  unfold docmodel.RenderDoc
  rw [mapM_parseLine_render _ _ h, joinLF_splitLF]



theorem c2_witness :
    docmodel.ParseDoc "image:\n  repository: ghcr.io/example/app\n  # bump: image=ghcr.io/example/app strategy=semver\n  tag: \"2.3.1\"\n" =
      Except.ok
        [docmodel.CLine.entry 0 (docmodel.CItem.containerKey "image"),
         docmodel.CLine.entry 2
           (docmodel.CItem.kv "repository" "ghcr.io/example/app" none),
         docmodel.CLine.comment 2
           " bump: image=ghcr.io/example/app strategy=semver",
         docmodel.CLine.entry 2 (docmodel.CItem.kv "tag" "\"2.3.1\"" none),
         docmodel.CLine.blank 0] ∧
    docmodel.RenderDoc
        [docmodel.CLine.entry 0 (docmodel.CItem.containerKey "image"),
         docmodel.CLine.entry 2
           (docmodel.CItem.kv "repository" "ghcr.io/example/app" none),
         docmodel.CLine.comment 2
           " bump: image=ghcr.io/example/app strategy=semver",
         docmodel.CLine.entry 2 (docmodel.CItem.kv "tag" "\"2.3.1\"" none),
         docmodel.CLine.blank 0] =
      "image:\n  repository: ghcr.io/example/app\n  # bump: image=ghcr.io/example/app strategy=semver\n  tag: \"2.3.1\"\n" :=
  ⟨rfl, c2_parse_render_roundtrip _ _ rfl⟩

end HelmBumper
